import Mathlib

/-!
Shallow embedding of the health-policy-assistant ingestion pipeline:
`scripts/chunker.py` (clause-aware chunker) and `scripts/embed_generator.py`
(embedding attacher).  The tokenizer (tiktoken `cl100k_base`) and the
embedding provider (Gemini API) are external collaborators per the design
document and are modelled as function parameters (`tok : String → Nat`,
`provider : String → Option (List α)`).  Python strings are modelled as
`String` / `List Char`; the regular expressions used by the chunker are
embedded as explicit character-list scanners with the same semantics on
the (ASCII) inputs involved.  Fallible Python code (statements that can
raise) is modelled with `Except`.
-/

set_option maxHeartbeats 1000000
set_option maxRecDepth 10000

/-! ### Character and string primitives -/

/-- ASCII whitespace as used by Python `str.strip()` and `\s`. -/
def pyIsSpace (c : Char) : Bool :=
  c = ' ' || c = '\t' || c = '\n' || c = '\r' || c = '\x0b' || c = '\x0c'

/-- Python `str.strip()` on a character list. -/
def pyStripL (l : List Char) : List Char :=
  ((l.dropWhile pyIsSpace).reverse.dropWhile pyIsSpace).reverse

/-- Python `str.strip()` on a string. -/
def pyStripS (s : String) : String := String.mk (pyStripL s.data)

/-- Python `a.startswith(b)` (pattern first) at the character level. -/
def startsWithL : List Char → List Char → Bool
  | [], _ => true
  | _ :: _, [] => false
  | p :: ps, c :: cs => p = c && startsWithL ps cs

/-- Python `p.startswith(pre)` on strings (prefix argument first). -/
def startsWithS (pre s : String) : Bool := startsWithL pre.data s.data

/-- Python substring test (`pat in s`) at the character level. -/
def containsL (p : List Char) : List Char → Bool
  | [] => startsWithL p []
  | c :: cs => startsWithL p (c :: cs) || containsL p cs

/-- Python substring test (`pat in s`) on strings (pattern first). -/
def containsSub (pat s : String) : Bool := containsL pat.data s.data

/-- Python `'\n'.join(parts)` at the character level. -/
def joinNlL : List (List Char) → List Char
  | [] => []
  | [c] => c
  | c :: cs => c ++ '\n' :: joinNlL cs

/-- Python `'\n'.join(parts)` on strings. -/
def joinNl (cs : List String) : String := String.mk (joinNlL (cs.map String.data))

/-! ### String constants appearing in the source -/

def markerChart : String := "PREMIUM CHART"

def markerTable : String := "PREMIUM TABLE"

/-- The prefix tested by `part.startswith("### SECTION:")`. -/
def secPrefix12 : String := "### SECTION:"

/-- The literal prefix of both section-marker regexes (`### SECTION: `). -/
def secPrefix13 : String := "### SECTION: "

def tAge : String := "Age / SI"

def tIndiv : String := "Indiv."

def t2A : String := "2A\n"

def spHash3 : String := " ###"

def hash3 : List Char := [ '#', '#', '#' ]

def introName : String := "Introduction"

def dashStr : String := "-"

def chunkPrefixStr : String := "chunk_"

def attrErrName : String := "AttributeError"

def zeroDivErrName : String := "ZeroDivisionError"

def prLow : String := "low"

def prHigh : String := "high"

def emptyS : String := ""

/-! ### Regex scanners of `chunker.py` -/

/-- Split a character list at every `'\n'` whose remainder satisfies the
lookahead `p`; the `'\n'` is consumed (semantics of `re.split(r'\n(?=...)', s)`). -/
def reSplitNl (p : List Char → Bool) : List Char → List (List Char)
  | [] => [[]]
  | c :: rest =>
    if c = '\n' && p rest then [] :: reSplitNl p rest
    else
      match reSplitNl p rest with
      | h :: t => (c :: h) :: t
      | [] => [[c]]

def isDigitC (c : Char) : Bool := '0' ≤ c && c ≤ '9'

/-- Lookahead `\d+\.`: one or more digits immediately followed by a dot. -/
def digitsDot (l : List Char) : Bool :=
  let ds := l.takeWhile isDigitC
  !ds.isEmpty &&
    (match l.drop ds.length with
     | c :: _ => c = '.'
     | [] => false)

/-- Lookahead of `re.split(r'\n(?=•|\d+\.)', text)`. -/
def bulletAhead (l : List Char) : Bool :=
  startsWithL [ '•' ] l || digitsDot l

/-- Lookahead of `re.split(r'\n(?=Age / SI|Indiv\.|2A\n)', text)`. -/
def tableAhead (l : List Char) : Bool :=
  startsWithL tAge.data l || startsWithL tIndiv.data l || startsWithL t2A.data l

def isSentEnd (c : Char) : Bool := c = '.' || c = '!' || c = '?'

def isUpperAZ (c : Char) : Bool := 'A' ≤ c && c ≤ 'Z'

/-- After the maximal whitespace run in front of `l`'s remainder, is the next
character an uppercase ASCII letter?  Used for the `\s+(?=[A-Z])` part of the
sentence-splitting regex (greedy `\s+` with the lookahead matches exactly the
maximal whitespace run whose following character is `[A-Z]`). -/
def upperAfterRun (l : List Char) : Bool :=
  match l.dropWhile pyIsSpace with
  | c :: _ => isUpperAZ c
  | [] => false

/-- `re.split(r'(?<=[.!?])\s+(?=[A-Z])', part)`: fuel-indexed scanner (the fuel
only makes the recursion structural; `sentSplit` supplies fuel larger than the
input length, so the fuel-exhaustion branch is unreachable).  `prev` is the
character before the current position (for the `(?<=[.!?])` lookbehind). -/
def sentAuxF : Nat → Char → List Char → List (List Char)
  | 0, _, _ => [[]]
  | _ + 1, _, [] => [[]]
  | fuel + 1, prev, c :: rest =>
    if isSentEnd prev && pyIsSpace c && upperAfterRun rest then
      [] :: sentAuxF fuel ' ' (rest.dropWhile pyIsSpace)
    else
      match sentAuxF fuel c rest with
      | h :: t => (c :: h) :: t
      | [] => [[c]]

/-- Sentence-level fallback split of `identify_clauses`. -/
def sentSplit (l : List Char) : List (List Char) := sentAuxF (l.length + 1) 'x' l

/-! ### Data model (`chunker.py`) -/

/-- A section dict `{'section': ..., 'text': ...}` (the Python key `section`
is spelled `sectionName` because `section` is a Lean keyword). -/
structure Section where
  sectionName : String
  text : String
  deriving DecidableEq

/-- A chunk dict as built by `create_chunks` (before the premium-table
post-pass adds `is_premium_table`). -/
structure Chunk where
  chunk_id : String
  sectionName : String
  text : String
  token_count : Nat
  clause_index : String
  deriving DecidableEq

/-- A chunk after `filter_premium_tables` filled in `is_premium_table`. -/
structure FlaggedChunk extends Chunk where
  is_premium_table : Bool
  deriving DecidableEq

/-! ### `ClauseAwareChunker.identify_clauses` -/

/-- `identify_clauses(text)`; `tok` is `self.count_tokens`, `target` is
`self.target_size`. -/
def identify_clauses (tok : String → Nat) (target : Nat) (text : String) : List String :=
  if containsSub markerChart text || containsSub markerTable text then
    (((reSplitNl tableAhead text.data).map pyStripL).filter (fun p => p ≠ [])).map String.mk
  else
    (reSplitNl bulletAhead text.data).foldl (fun clauses part =>
      let sp := pyStripL part
      if sp = [] then clauses
      else if target < tok (String.mk sp) then
        clauses ++ (sentSplit sp).map String.mk
      else clauses ++ [String.mk sp]) []

/-! ### `ClauseAwareChunker.create_chunks` -/

/-- Python `f"{n:04d}"`. -/
def natPad4 (n : Nat) : String :=
  String.mk (List.replicate (4 - (toString n).length) '0') ++ toString n

/-- Python `f"chunk_{chunk_id:04d}"`. -/
def chunkIdStr (n : Nat) : String := chunkPrefixStr ++ natPad4 n

/-- Python `f"{a}-{b}"` on (arbitrary-precision) integers. -/
def intIndexStr (a b : Int) : String := toString a ++ dashStr ++ toString b

/-- The packing loop of `create_chunks` for one section, with the section's
clause count `n`, the remaining clauses, the enumeration index `i`, the
running buffer `current_chunk = cc`, its accumulated token count `ct`, and
the global chunk-id counter `cid`.  Returns the chunks of this section (in
order) and the updated counter. -/
def packLoop (tok : String → Nat) (target ov : Nat) (sname : String) (n : Nat) :
    List String → Nat → List String → Nat → Nat → List Chunk × Nat
  | [], _i, cc, _ct, cid =>
    if _h : cc = [] then ([], cid)
    else
      ([{ chunk_id := chunkIdStr cid, sectionName := sname, text := joinNl cc,
          token_count := tok (joinNl cc),
          clause_index := intIndexStr ((n : Int) - (cc.length : Int)) ((n : Int) - 1) }],
       cid + 1)
  | clause :: rest, i, cc, ct, cid =>
    let clause_tokens := tok clause
    if h : target < ct + clause_tokens ∧ cc ≠ [] then
      let ch : Chunk :=
        { chunk_id := chunkIdStr cid, sectionName := sname, text := joinNl cc,
          token_count := tok (joinNl cc),
          clause_index := intIndexStr ((i : Int) - (cc.length : Int)) ((i : Int) - 1) }
      let st : List String × Nat :=
        if 0 < ov ∧ 0 < cc.length then
          ([cc.getLast h.2, clause], tok (joinNl [cc.getLast h.2, clause]))
        else ([clause], clause_tokens)
      let res := packLoop tok target ov sname n rest (i + 1) st.1 st.2 (cid + 1)
      (ch :: res.1, res.2)
    else
      packLoop tok target ov sname n rest (i + 1) (cc ++ [clause]) (ct + clause_tokens) cid

/-- Packing of one section's clause list, started from an empty buffer. -/
def packSectionChunks (tok : String → Nat) (target ov : Nat) (sname : String)
    (clauses : List String) (cid : Nat) : List Chunk × Nat :=
  packLoop tok target ov sname clauses.length clauses 0 [] 0 cid

/-- `create_chunks(sections)`: sections processed in order, with the single
global chunk-id counter threaded through. -/
def create_chunks (tok : String → Nat) (target ov : Nat) (sections : List Section) :
    List Chunk :=
  (sections.foldl (fun acc sd =>
    let res := packSectionChunks tok target ov sd.sectionName
      (identify_clauses tok target sd.text) acc.2
    (acc.1 ++ res.1, res.2)) (([] : List Chunk), 0)).1

/-! ### `ClauseAwareChunker.filter_premium_tables` -/

/-- The post-pass marking premium-table chunks. -/
def filter_premium_tables (chunks : List Chunk) : List FlaggedChunk :=
  chunks.map (fun ch =>
    { toChunk := ch,
      is_premium_table := containsSub markerTable ch.text || containsSub markerChart ch.text })

/-! ### `ClauseAwareChunker.split_into_sections` -/

/-- Try to match the split regex `### SECTION: [^#]+###` at the head of `l`:
the literal prefix, then a maximal nonempty run of non-`#` characters, then
`###`.  Returns the matched text and the remainder. -/
def matchMarkerAt (l : List Char) : Option (List Char × List Char) :=
  if startsWithL secPrefix13.data l then
    if (l.drop 13).takeWhile (fun c => c ≠ '#') ≠ [] ∧
        startsWithL hash3
          ((l.drop 13).drop ((l.drop 13).takeWhile (fun c => c ≠ '#')).length) then
      some (l.take (13 + ((l.drop 13).takeWhile (fun c => c ≠ '#')).length + 3),
        (l.drop 13).drop (((l.drop 13).takeWhile (fun c => c ≠ '#')).length + 3))
    else none
  else none

/-- Scanner for `re.split(r'(### SECTION: [^#]+###)', text)`: returns the text
before the first match and the list of (matched delimiter, following text)
pairs.  Fuel-indexed to keep the recursion structural; `scanParts` supplies
fuel larger than the input length, so the fuel-exhaustion branch is
unreachable. -/
def scanPartsF : Nat → List Char → List Char × List (List Char × List Char)
  | 0, l => (l, [])
  | _ + 1, [] => ([], [])
  | fuel + 1, c :: rest =>
    match matchMarkerAt (c :: rest) with
    | some dl =>
      let res := scanPartsF fuel dl.2
      ([], (dl.1, res.1) :: res.2)
    | none =>
      let res := scanPartsF fuel rest
      (c :: res.1, res.2)

def scanParts (text : String) : List Char × List (List Char × List Char) :=
  scanPartsF (text.data.length + 1) text.data

/-- Flatten the delimiter/text pairs into the alternating tail of the Python
`re.split` result. -/
def flatSegs : List (List Char × List Char) → List String :=
  List.foldr (fun dt acc => String.mk dt.1 :: String.mk dt.2 :: acc) []

/-- The full `re.split(r'(### SECTION: [^#]+###)', text)` result:
`[text0, delim1, text1, delim2, text2, …]`. -/
def allParts (text : String) : List String :=
  String.mk (scanParts text).1 :: flatSegs (scanParts text).2

/-- The lazy group `(.+?)` of `re.search(r'### SECTION: (.+?) ###', part)`:
consume non-newline characters one at a time (shortest first), succeeding as
soon as at least one character has been consumed and the remainder starts
with `" ###"`.  `acc` holds the consumed characters in reverse. -/
def lazyNameFrom : List Char → List Char → Option (List Char)
  | _, [] => none
  | acc, c :: r =>
    if acc ≠ [] ∧ startsWithL spHash3.data (c :: r) then some acc.reverse
    else if c = '\n' then none
    else lazyNameFrom (c :: acc) r

/-- Try the search pattern anchored at the head of `l`. -/
def trySearchAt (l : List Char) : Option (List Char) :=
  if startsWithL secPrefix13.data l then lazyNameFrom [] (l.drop 13) else none

/-- `re.search(r'### SECTION: (.+?) ###', part)`, returning `group(1)`:
leftmost position wins. -/
def searchName : List Char → Option (List Char)
  | [] => none
  | c :: rest =>
    match trySearchAt (c :: rest) with
    | some nm => some nm
    | none => searchName rest

/-- The `for part in parts` loop of `split_into_sections`.  A part that starts
with `"### SECTION:"` flushes the accumulated text as a section and takes the
new name from `re.search(...).group(1)`; when the search fails Python raises
`AttributeError` (`None.group`), modelled as `Except.error`. -/
def partsLoop : List String → List Section → String → String → Except String (List Section)
  | [], secs, curName, curText =>
    if pyStripL curText.data ≠ [] then
      Except.ok (secs ++ [{ sectionName := curName, text := String.mk (pyStripL curText.data) }])
    else Except.ok secs
  | p :: rest, secs, curName, curText =>
    if startsWithS secPrefix12 p then
      let secs' :=
        if pyStripL curText.data ≠ [] then
          secs ++ [{ sectionName := curName, text := String.mk (pyStripL curText.data) }]
        else secs
      match searchName p.data with
      | some nm => partsLoop rest secs' (String.mk nm) emptyS
      | none => Except.error attrErrName
    else partsLoop rest secs curName (curText ++ p)

/-- `split_into_sections(text)`. -/
def split_into_sections (text : String) : Except String (List Section) :=
  partsLoop (allParts text) [] introName emptyS

/-! ### The chunking run (`ClauseAwareChunker.chunk`) after loading -/

/-- The chunking pipeline applied to the loaded input text: section split,
chunk creation, premium-table flagging, and `save_chunks`.  `save_chunks`
computes `avg_tokens = total_tokens / len(chunks)`, which raises
`ZeroDivisionError` when the chunk list is empty; that raise is the only
behaviour of `save_chunks` modelled here (the rest is I/O). -/
def chunkRun (tok : String → Nat) (target ov : Nat) (text : String) :
    Except String (List FlaggedChunk) :=
  match split_into_sections text with
  | Except.error e => Except.error e
  | Except.ok sections =>
    let chunks := filter_premium_tables (create_chunks tok target ov sections)
    if chunks.length = 0 then Except.error zeroDivErrName else Except.ok chunks

/-! ### `embed_generator.py` -/

/-- An embedding record as appended by `generate_all_embeddings`.  The vector
entries are abstract (`α`); the Python floats are never inspected. -/
structure EmbRecord (α : Type) where
  chunk_id : String
  sectionName : String
  text : String
  token_count : Nat
  embedding : List α
  embedding_dim : Nat
  is_premium_table : Bool
  priority : String
  deriving DecidableEq

/-- One iteration of the `for i, chunk in enumerate(chunks, 1)` loop.
`provider chunk.text = none` models `generate_embedding` returning `None`
after a caught provider exception; the Python guard `if embedding:` is falsy
both for `None` and for an empty vector. -/
def embedStep {α : Type} (skip : Bool) (provider : String → Option (List α))
    (acc : List (EmbRecord α)) (chunk : FlaggedChunk) : List (EmbRecord α) :=
  if skip && chunk.is_premium_table then acc
  else
    match provider chunk.text with
    | none => acc
    | some emb =>
      if emb.isEmpty then acc
      else
        acc ++ [{ chunk_id := chunk.chunk_id, sectionName := chunk.sectionName,
                  text := chunk.text, token_count := chunk.token_count,
                  embedding := emb, embedding_dim := emb.length,
                  is_premium_table := chunk.is_premium_table,
                  priority := if chunk.is_premium_table then prLow else prHigh }]

/-- `generate_all_embeddings(chunks)` with the skip policy and the provider
as parameters (`skip_premium_tables` defaults to `true` in the source). -/
def generate_all_embeddings {α : Type} (skip : Bool) (provider : String → Option (List α))
    (chunks : List FlaggedChunk) : List (EmbRecord α) :=
  chunks.foldl (embedStep skip provider) []

/-! ### Specification-side definitions used to state the claims -/

/-- `f"{s}-{e}"` for a natural-number clause range (the spec's
`clause_index` reading). -/
def rangeFmt (r : Nat × Nat) : String := toString r.1 ++ dashStr ++ toString r.2

/-- The chain structure of the clause ranges of one section's chunks:
consecutive ranges abut (`overlap = 0`) or share exactly their endpoint
(`overlap > 0`), the first range starts at `start`, the last ends at `n - 1`,
and with overlap every range after the first covers at least two clauses.
`first` records whether the next range is the section's first chunk. -/
def chainB (ov n : Nat) : Bool → Nat → List (Nat × Nat) → Bool
  | _, _, [] => false
  | first, start, (s, e) :: rest =>
    (s == start && decide (s ≤ e) && (first || ov == 0 || decide (s < e))) &&
      (match rest with
       | [] => e + 1 == n
       | _ :: _ => chainB ov n false (if 0 < ov then e else e + 1) rest)

/-- In how many of the ranges does clause `i` occur? -/
def countMem (i : Nat) (rs : List (Nat × Nat)) : Nat :=
  (rs.filter (fun r => decide (r.1 ≤ i) && decide (i ≤ r.2))).length

/-- The input text with every substring matched by the section-marker split
regex removed (the spec's "text with the section markers removed"). -/
def removeMarkers (text : String) : String :=
  String.mk ((scanParts text).1 ++ ((scanParts text).2.map Prod.snd).flatten)

/-- Concatenation of the `text` fields of a section list, in order. -/
def concatTexts (ss : List Section) : String :=
  String.mk ((ss.map (fun s => s.text.data)).flatten)

/-! ### Concrete inputs used by witnesses and counterexamples -/

def sNameS : String := "S"

def helloS : String := "hello"

def secsHello : List Section := [{ sectionName := sNameS, text := helloS }]

/-- The flagged chunk the chunker produces from `secsHello` with the
length tokenizer. -/
def helloChunk : FlaggedChunk :=
  { chunk_id := chunkIdStr 0, sectionName := sNameS, text := helloS,
    token_count := 5, clause_index := rangeFmt (0, 0), is_premium_table := false }

/-- A single clause of 1800 characters: three times the default target of 600
under the length tokenizer. -/
def bigClause : String := String.mk (List.replicate 1800 'a')

def aS : String := "A"

def bS : String := "B"

def xS : String := "X"

/-- A text with one well-formed section marker between two one-character
texts; the whitespace around the marker is trimmed away by section
splitting. -/
def c6Text : String := "A\n### SECTION: X ###\nB"

def c6Secs : List Section :=
  [{ sectionName := introName, text := aS }, { sectionName := xS, text := bS }]

/-- A premium-chart section whose clauses pack into two chunks under the
length tokenizer with `target_size = 30`. -/
def c5SecText : String := "PREMIUM CHART\nAge / SI 1\nAge / SI 2"

def c5Secs : List Section := [{ sectionName := sNameS, text := c5SecText }]

def c5ChunkText : String := "PREMIUM CHART\nAge / SI 1"

/-- The first chunk the chunker produces from `c5Secs` (flagged `true`). -/
def c5fc : FlaggedChunk :=
  { chunk_id := chunkIdStr 0, sectionName := sNameS, text := c5ChunkText, token_count := 24,
    clause_index := rangeFmt (0, 1), is_premium_table := true }

def txtA : String := "ta"

def txtB : String := "tb"

def txtC : String := "tc"

def fcA : FlaggedChunk :=
  { chunk_id := chunkIdStr 0, sectionName := sNameS, text := txtA, token_count := 2,
    clause_index := rangeFmt (0, 0), is_premium_table := false }

def fcB : FlaggedChunk :=
  { chunk_id := chunkIdStr 1, sectionName := sNameS, text := txtB, token_count := 2,
    clause_index := rangeFmt (1, 1), is_premium_table := false }

def fcC : FlaggedChunk :=
  { chunk_id := chunkIdStr 2, sectionName := sNameS, text := txtC, token_count := 2,
    clause_index := rangeFmt (2, 2), is_premium_table := false }

/-- A provider that fails exactly on the text of `fcB`. -/
def provB : String → Option (List Int) := fun t => if t = txtB then none else some [1]

def aaS : String := "aa"

def bbS : String := "bb"

def ccS : String := "cc"

def ddS : String := "dd"

/-! ### Helper lemmas -/

theorem packLoop_token_count (tok : String → Nat) (target ov : Nat) (sname : String) (n : Nat) :
    ∀ (rest : List String) (i : Nat) (cc : List String) (ct cid : Nat) (ch : Chunk),
      ch ∈ (packLoop tok target ov sname n rest i cc ct cid).1 →
      ch.token_count = tok ch.text := by
  intro rest
  induction rest with
  | nil =>
    intro i cc ct cid ch hch
    rw [packLoop] at hch
    split at hch
    · simp at hch
    · simp at hch
      subst hch; rfl
  | cons clause rest ih =>
    intro i cc ct cid ch hch
    rw [packLoop] at hch
    split at hch
    · simp only [List.mem_cons] at hch
      rcases hch with h1 | h1
      · subst h1; rfl
      · exact ih _ _ _ _ _ h1
    · exact ih _ _ _ _ _ hch

theorem createFold_mem (tok : String → Nat) (target ov : Nat) (P : Chunk → Prop)
    (hP : ∀ sname clauses cid ch, ch ∈ (packSectionChunks tok target ov sname clauses cid).1 → P ch) :
    ∀ (ss : List Section) (acc : List Chunk × Nat),
      (∀ ch ∈ acc.1, P ch) →
      ∀ ch ∈ (ss.foldl (fun acc sd =>
          let res := packSectionChunks tok target ov sd.sectionName
            (identify_clauses tok target sd.text) acc.2
          (acc.1 ++ res.1, res.2)) acc).1, P ch := by
  intro ss
  induction ss with
  | nil => exact fun acc hacc ch hch => hacc ch hch
  | cons sd ss ih =>
    intro acc hacc ch hch
    rw [List.foldl_cons] at hch
    refine ih _ ?_ ch hch
    intro ch' hch'
    simp only [List.mem_append] at hch'
    rcases hch' with h | h
    · exact hacc _ h
    · exact hP _ _ _ _ h

/-! ### C3 -/

/-- C3: for every chunk produced by the chunker (both chunks closed
mid-section and the final flushed chunk of each section, and unchanged by
the premium-table post-pass), the stored `token_count` equals re-tokenizing
the chunk's `text` with the same tokenizer used for the packing decisions. -/
theorem c3_token_count_fidelity (tok : String → Nat) (target ov : Nat)
    (sections : List Section) :
    ∀ fc ∈ filter_premium_tables (create_chunks tok target ov sections),
      fc.token_count = tok fc.text := by
  intro fc hfc
  simp only [filter_premium_tables, List.mem_map] at hfc
  obtain ⟨ch, hch, rfl⟩ := hfc
  exact createFold_mem tok target ov (fun ch => ch.token_count = tok ch.text)
    (fun sname clauses cid ch h => packLoop_token_count tok target ov sname _ _ _ _ _ _ ch h)
    sections ([], 0) (by simp) ch hch

theorem c3_witness :
    helloChunk ∈ filter_premium_tables (create_chunks String.length 600 100 secsHello) ∧
      helloChunk.token_count = String.length helloChunk.text :=
  ⟨by decide, c3_token_count_fidelity String.length 600 100 secsHello helloChunk (by decide)⟩


/-! ### Branch equations for the packing loop -/

theorem packLoop_nil_empty (tok : String → Nat) (target ov : Nat) (sname : String)
    (n i ct cid : Nat) :
    packLoop tok target ov sname n [] i [] ct cid = ([], cid) := by
  rw [packLoop, dif_pos rfl]

theorem packLoop_nil_flush (tok : String → Nat) (target ov : Nat) (sname : String)
    (n i : Nat) (cc : List String) (ct cid : Nat) (h : cc ≠ []) :
    packLoop tok target ov sname n [] i cc ct cid =
      ([{ chunk_id := chunkIdStr cid, sectionName := sname, text := joinNl cc,
          token_count := tok (joinNl cc),
          clause_index := intIndexStr ((n : Int) - (cc.length : Int)) ((n : Int) - 1) }],
       cid + 1) := by
  rw [packLoop, dif_neg h]

theorem packLoop_cons_close (tok : String → Nat) (target ov : Nat) (sname : String)
    (n : Nat) (clause : String) (rest : List String) (i : Nat) (cc : List String)
    (ct cid : Nat) (h1 : target < ct + tok clause) (h2 : cc ≠ []) :
    packLoop tok target ov sname n (clause :: rest) i cc ct cid =
      ({ chunk_id := chunkIdStr cid, sectionName := sname, text := joinNl cc,
         token_count := tok (joinNl cc),
         clause_index := intIndexStr ((i : Int) - (cc.length : Int)) ((i : Int) - 1) } ::
        (packLoop tok target ov sname n rest (i + 1)
          (if 0 < ov ∧ 0 < cc.length then
            ([cc.getLast h2, clause], tok (joinNl [cc.getLast h2, clause]))
           else ([clause], tok clause)).1
          (if 0 < ov ∧ 0 < cc.length then
            ([cc.getLast h2, clause], tok (joinNl [cc.getLast h2, clause]))
           else ([clause], tok clause)).2 (cid + 1)).1,
       (packLoop tok target ov sname n rest (i + 1)
          (if 0 < ov ∧ 0 < cc.length then
            ([cc.getLast h2, clause], tok (joinNl [cc.getLast h2, clause]))
           else ([clause], tok clause)).1
          (if 0 < ov ∧ 0 < cc.length then
            ([cc.getLast h2, clause], tok (joinNl [cc.getLast h2, clause]))
           else ([clause], tok clause)).2 (cid + 1)).2) := by
  rw [packLoop, dif_pos ⟨h1, h2⟩]

theorem packLoop_cons_append (tok : String → Nat) (target ov : Nat) (sname : String)
    (n : Nat) (clause : String) (rest : List String) (i : Nat) (cc : List String)
    (ct cid : Nat) (h : ¬(target < ct + tok clause ∧ cc ≠ [])) :
    packLoop tok target ov sname n (clause :: rest) i cc ct cid =
      packLoop tok target ov sname n rest (i + 1) (cc ++ [clause]) (ct + tok clause) cid := by
  rw [packLoop, dif_neg h]

/-! ### C2 -/

/-- C2: a clause whose token count exceeds `target_size` arriving on an empty
packing buffer is emitted alone as a single oversized chunk: the close
condition requires a non-empty buffer and so cannot fire on it, and nothing
is truncated or raised (the packing loop is a total function).  The first
chunk produced from that state is exactly the oversized clause, with its
exact (oversized) token count. -/
theorem c2_oversized_clause_alone (tok : String → Nat) (target ov : Nat) (sname : String)
    (n : Nat) (rest : List String) (i ct cid : Nat) (c : String)
    (hbig : target < tok c) :
    ∃ ch t, (packLoop tok target ov sname n (c :: rest) i [] ct cid).1 = ch :: t ∧
      ch.text = c ∧ ch.token_count = tok c := by
  rw [packLoop_cons_append tok target ov sname n c rest i [] ct cid (by simp)]
  cases rest with
  | nil =>
    rw [packLoop_nil_flush tok target ov sname n (i + 1) ([] ++ [c]) (ct + tok c) cid (by simp)]
    exact ⟨_, _, rfl, rfl, rfl⟩
  | cons r rs =>
    rw [packLoop_cons_close tok target ov sname n r rs (i + 1) ([] ++ [c]) (ct + tok c) cid
      (by omega) (by simp)]
    exact ⟨_, _, rfl, rfl, rfl⟩

theorem c2_witness :
    600 < String.length bigClause ∧
      ∃ ch t, (packLoop String.length 600 100 sNameS 1 [bigClause] 0 [] 0 0).1 = ch :: t ∧
        ch.text = bigClause ∧ ch.token_count = String.length bigClause :=
  ⟨by decide,
   c2_oversized_clause_alone String.length 600 100 sNameS 1 [] 0 0 0 bigClause (by decide)⟩

/-! ### C9 -/

theorem packLoop_ids (tok : String → Nat) (target ov : Nat) (sname : String) (n : Nat) :
    ∀ (rest : List String) (i : Nat) (cc : List String) (ct cid : Nat),
      (packLoop tok target ov sname n rest i cc ct cid).2
        = cid + (packLoop tok target ov sname n rest i cc ct cid).1.length ∧
      ∀ k (hk : k < (packLoop tok target ov sname n rest i cc ct cid).1.length),
        ((packLoop tok target ov sname n rest i cc ct cid).1)[k].chunk_id
          = chunkIdStr (cid + k) := by
  intro rest
  induction rest with
  | nil =>
    intro i cc ct cid
    by_cases hcc : cc = []
    · subst hcc
      rw [packLoop_nil_empty]
      simp
    · rw [packLoop_nil_flush tok target ov sname n i cc ct cid hcc]
      refine ⟨by simp, ?_⟩
      intro k hk
      simp only [List.length_singleton] at hk
      have hk0 : k = 0 := by omega
      subst hk0
      simp
  | cons clause rest ih =>
    intro i cc ct cid
    by_cases hcl : target < ct + tok clause ∧ cc ≠ []
    · rw [packLoop_cons_close tok target ov sname n clause rest i cc ct cid hcl.1 hcl.2]
      obtain ⟨ih1, ih2⟩ := ih (i + 1)
        (if 0 < ov ∧ 0 < cc.length then
          ([cc.getLast hcl.2, clause], tok (joinNl [cc.getLast hcl.2, clause]))
         else ([clause], tok clause)).1
        (if 0 < ov ∧ 0 < cc.length then
          ([cc.getLast hcl.2, clause], tok (joinNl [cc.getLast hcl.2, clause]))
         else ([clause], tok clause)).2 (cid + 1)
      refine ⟨?_, ?_⟩
      · simp only [ih1, List.length_cons]
        omega
      · intro k hk
        match k with
        | 0 => simp
        | k + 1 =>
          simp only [List.length_cons] at hk
          simp only [List.getElem_cons_succ]
          rw [ih2 k (by omega)]
          congr 1
          omega
    · rw [packLoop_cons_append tok target ov sname n clause rest i cc ct cid hcl]
      exact ih (i + 1) (cc ++ [clause]) (ct + tok clause) cid

theorem createFold_ids (tok : String → Nat) (target ov : Nat) :
    ∀ (ss : List Section) (acc : List Chunk × Nat),
      acc.2 = acc.1.length →
      (∀ k (hk : k < acc.1.length), (acc.1)[k].chunk_id = chunkIdStr k) →
      (ss.foldl (fun acc sd =>
          let res := packSectionChunks tok target ov sd.sectionName
            (identify_clauses tok target sd.text) acc.2
          (acc.1 ++ res.1, res.2)) acc).2
        = (ss.foldl (fun acc sd =>
          let res := packSectionChunks tok target ov sd.sectionName
            (identify_clauses tok target sd.text) acc.2
          (acc.1 ++ res.1, res.2)) acc).1.length ∧
      ∀ k (hk : k < (ss.foldl (fun acc sd =>
          let res := packSectionChunks tok target ov sd.sectionName
            (identify_clauses tok target sd.text) acc.2
          (acc.1 ++ res.1, res.2)) acc).1.length),
        ((ss.foldl (fun acc sd =>
          let res := packSectionChunks tok target ov sd.sectionName
            (identify_clauses tok target sd.text) acc.2
          (acc.1 ++ res.1, res.2)) acc).1)[k].chunk_id = chunkIdStr k := by
  intro ss
  induction ss with
  | nil => exact fun acc h1 h2 => ⟨h1, h2⟩
  | cons sd ss ih =>
    intro acc h1 h2
    rw [List.foldl_cons]
    refine ih _ ?_ ?_
    · have hp := (packLoop_ids tok target ov sd.sectionName
        (identify_clauses tok target sd.text).length
        (identify_clauses tok target sd.text) 0 [] 0 acc.2).1
      rw [h1] at hp
      simp only [packSectionChunks, h1, List.length_append]
      rw [hp]
    · intro k hk
      simp only [List.length_append] at hk
      by_cases hklt : k < acc.1.length
      · simp only [List.getElem_append_left hklt]
        exact h2 k hklt
      · have hk2 : k - acc.1.length < (packSectionChunks tok target ov sd.sectionName
          (identify_clauses tok target sd.text) acc.2).1.length := by omega
        simp only [List.getElem_append_right (by omega : acc.1.length ≤ k)]
        have hp2 := (packLoop_ids tok target ov sd.sectionName
          (identify_clauses tok target sd.text).length
          (identify_clauses tok target sd.text) 0 [] 0 acc.2).2 (k - acc.1.length)
          (by simpa [packSectionChunks] using hk2)
        simp only [packSectionChunks]
        rw [hp2]
        congr 1
        omega

/-- C9: chunk ids form a single global sequence across all sections: the
`k`-th chunk produced (counting from 0 in production order, across section
boundaries, without reset) has id `"chunk_"` followed by `k` zero-padded to
4 digits — strictly increasing, no gaps, no per-section reset. -/
theorem c9_global_id_sequence (tok : String → Nat) (target ov : Nat) (sections : List Section) :
    ∀ k (hk : k < (create_chunks tok target ov sections).length),
      ((create_chunks tok target ov sections))[k].chunk_id = chunkIdStr k := by
  intro k hk
  have h := (createFold_ids tok target ov sections ([], 0) rfl (by simp)).2 k
  simp only [create_chunks] at hk ⊢
  exact h hk

theorem c9_witness :
    (0 < (create_chunks String.length 600 100 secsHello).length) ∧
      ((create_chunks String.length 600 100 secsHello))[0].chunk_id = chunkIdStr 0 :=
  ⟨by decide, c9_global_id_sequence String.length 600 100 secsHello 0 (by decide)⟩

/-! ### C1 -/

theorem startsWithL_refl : ∀ l : List Char, startsWithL l l = true
  | [] => rfl
  | c :: cs => by simp [startsWithL, startsWithL_refl cs]

theorem startsWithL_self_append : ∀ (p t : List Char), startsWithL p (p ++ t) = true
  | [], _ => rfl
  | c :: cs, t => by simp [startsWithL, startsWithL_self_append cs t]

theorem startsWithL_prepend : ∀ (x p l : List Char),
    startsWithL p l = true → startsWithL (x ++ p) (x ++ l) = true
  | [], _, _, h => h
  | c :: cs, p, l, h => by simp [startsWithL, startsWithL_prepend cs p l h]

/-- The joined text of a buffer `B :: C :: t` starts with the joined pair
`B\nC`. -/
theorem startsWith_joinNl_pair (B C : String) (t : List String) :
    startsWithS (joinNl [B, C]) (joinNl (B :: C :: t)) = true := by
  cases t with
  | nil => exact startsWithL_refl _
  | cons x xs =>
    show startsWithL (B.data ++ '\n' :: C.data)
      (B.data ++ '\n' :: joinNlL (C.data :: x.data :: xs.map String.data)) = true
    rw [show joinNlL (C.data :: x.data :: xs.map String.data)
        = C.data ++ '\n' :: joinNlL (x.data :: xs.map String.data) from rfl]
    rw [show B.data ++ '\n' :: (C.data ++ '\n' :: joinNlL (x.data :: xs.map String.data))
        = (B.data ++ '\n' :: C.data) ++ '\n' :: joinNlL (x.data :: xs.map String.data) by simp]
    exact startsWithL_self_append _ _

/-- The joined text of a buffer `C :: t` starts with `C`. -/
theorem startsWith_joinNl_head (C : String) (t : List String) :
    startsWithS C (joinNl (C :: t)) = true := by
  cases t with
  | nil => exact startsWithL_refl _
  | cons x xs =>
    show startsWithL C.data (C.data ++ '\n' :: joinNlL (x.data :: xs.map String.data)) = true
    exact startsWithL_self_append _ _

theorem packLoop_fst_nil_flush (tok : String → Nat) (target ov : Nat) (sname : String)
    (n i : Nat) (cc : List String) (ct cid : Nat) (h : cc ≠ []) :
    (packLoop tok target ov sname n [] i cc ct cid).1 =
      [{ chunk_id := chunkIdStr cid, sectionName := sname, text := joinNl cc,
         token_count := tok (joinNl cc),
         clause_index := intIndexStr ((n : Int) - (cc.length : Int)) ((n : Int) - 1) }] := by
  rw [packLoop_nil_flush tok target ov sname n i cc ct cid h]

theorem packLoop_fst_cons_append (tok : String → Nat) (target ov : Nat) (sname : String)
    (n : Nat) (clause : String) (rest : List String) (i : Nat) (cc : List String)
    (ct cid : Nat) (h : ¬(target < ct + tok clause ∧ cc ≠ [])) :
    (packLoop tok target ov sname n (clause :: rest) i cc ct cid).1 =
      (packLoop tok target ov sname n rest (i + 1) (cc ++ [clause]) (ct + tok clause) cid).1 := by
  rw [packLoop_cons_append tok target ov sname n clause rest i cc ct cid h]

theorem packLoop_fst_close_ov (tok : String → Nat) (target ov : Nat) (sname : String)
    (n : Nat) (clause : String) (rest : List String) (i : Nat) (cc : List String)
    (ct cid : Nat) (hov : 0 < ov) (h1 : target < ct + tok clause) (h2 : cc ≠ []) :
    (packLoop tok target ov sname n (clause :: rest) i cc ct cid).1 =
      { chunk_id := chunkIdStr cid, sectionName := sname, text := joinNl cc,
        token_count := tok (joinNl cc),
        clause_index := intIndexStr ((i : Int) - (cc.length : Int)) ((i : Int) - 1) } ::
        (packLoop tok target ov sname n rest (i + 1) [cc.getLast h2, clause]
          (tok (joinNl [cc.getLast h2, clause])) (cid + 1)).1 := by
  rw [packLoop_cons_close tok target ov sname n clause rest i cc ct cid h1 h2]
  rw [if_pos ⟨hov, List.length_pos.mpr h2⟩]

theorem packLoop_fst_close_noov (tok : String → Nat) (target : Nat) (sname : String)
    (n : Nat) (clause : String) (rest : List String) (i : Nat) (cc : List String)
    (ct cid : Nat) (h1 : target < ct + tok clause) (h2 : cc ≠ []) :
    (packLoop tok target 0 sname n (clause :: rest) i cc ct cid).1 =
      { chunk_id := chunkIdStr cid, sectionName := sname, text := joinNl cc,
        token_count := tok (joinNl cc),
        clause_index := intIndexStr ((i : Int) - (cc.length : Int)) ((i : Int) - 1) } ::
        (packLoop tok target 0 sname n rest (i + 1) [clause] (tok clause) (cid + 1)).1 := by
  rw [packLoop_cons_close tok target 0 sname n clause rest i cc ct cid h1 h2]
  rw [if_neg (by simp)]

/-- C1: in the packing loop, when a chunk is closed because adding the
current clause would exceed `target_size`, the next buffer is seeded with
the last clause of the closed chunk followed by the current clause when
`overlap > 0`, and with the current clause alone when `overlap = 0`.
Consequently, for a section with clauses `[A, B, C, D]` where the close
happens after `B` (packing `A, B` fits the target, adding `C` exceeds it),
the second chunk's text begins with `B` then `C` (joined by a newline) when
overlap is enabled, and with `C` when overlap is zero. -/
theorem c1_overlap_seeding (tok : String → Nat) (target ov : Nat) (sname : String)
    (A B C D : String) (cid : Nat)
    (hAB : tok A + tok B ≤ target) (hABC : target < tok A + tok B + tok C) :
    (0 < ov → ∃ pre ch t, (packSectionChunks tok target ov sname [A, B, C, D] cid).1
        = pre :: ch :: t ∧ startsWithS (joinNl [B, C]) ch.text = true) ∧
    (ov = 0 → ∃ pre ch t, (packSectionChunks tok target ov sname [A, B, C, D] cid).1
        = pre :: ch :: t ∧ startsWithS C ch.text = true) := by
  have f0 : (packSectionChunks tok target ov sname [A, B, C, D] cid).1
      = (packLoop tok target ov sname ([A, B, C, D] : List String).length
          [C, D] 2 [A, B] (0 + tok A + tok B) cid).1 := by
    rw [packSectionChunks]
    rw [packLoop_fst_cons_append tok target ov sname ([A, B, C, D] : List String).length
      A [B, C, D] 0 [] 0 cid (by simp)]
    rw [packLoop_fst_cons_append tok target ov sname ([A, B, C, D] : List String).length
      B [C, D] 1 ([] ++ [A]) (0 + tok A) cid (by rintro ⟨hx, -⟩; omega)]
    simp
  have hne : ([A, B] : List String) ≠ [] := by simp
  have hlast : ∀ h : ([A, B] : List String) ≠ [], ([A, B] : List String).getLast h = B :=
    fun _ => rfl
  constructor
  · intro hov
    have f2 := packLoop_fst_close_ov tok target ov sname ([A, B, C, D] : List String).length
      C [D] 2 [A, B] (0 + tok A + tok B) cid hov (by omega) hne
    rw [hlast] at f2
    by_cases hD : target < tok (joinNl [B, C]) + tok D
    · have f3 := packLoop_fst_close_ov tok target ov sname ([A, B, C, D] : List String).length
        D [] 3 [B, C] (tok (joinNl [B, C])) (cid + 1) hov hD (by simp)
      exact ⟨_, _, _, f0.trans (f2.trans (congrArg (List.cons _) f3)),
        startsWith_joinNl_pair B C []⟩
    · have f3 := packLoop_fst_cons_append tok target ov sname
        ([A, B, C, D] : List String).length D [] 3 [B, C] (tok (joinNl [B, C])) (cid + 1)
        (by rintro ⟨hx, -⟩; omega)
      have f4 := packLoop_fst_nil_flush tok target ov sname
        ([A, B, C, D] : List String).length 4 ([B, C] ++ [D])
        (tok (joinNl [B, C]) + tok D) (cid + 1) (by simp)
      exact ⟨_, _, _, f0.trans (f2.trans (congrArg (List.cons _) (f3.trans f4))),
        startsWith_joinNl_pair B C [D]⟩
  · intro hov0
    subst hov0
    have f2 := packLoop_fst_close_noov tok target sname ([A, B, C, D] : List String).length
      C [D] 2 [A, B] (0 + tok A + tok B) cid (by omega) hne
    by_cases hD : target < tok C + tok D
    · have f3 := packLoop_fst_close_noov tok target sname ([A, B, C, D] : List String).length
        D [] 3 [C] (tok C) (cid + 1) hD (by simp)
      exact ⟨_, _, _, f0.trans (f2.trans (congrArg (List.cons _) f3)),
        startsWith_joinNl_head C []⟩
    · have f3 := packLoop_fst_cons_append tok target 0 sname
        ([A, B, C, D] : List String).length D [] 3 [C] (tok C) (cid + 1)
        (by rintro ⟨hx, -⟩; omega)
      have f4 := packLoop_fst_nil_flush tok target 0 sname
        ([A, B, C, D] : List String).length 4 ([C] ++ [D]) (tok C + tok D) (cid + 1) (by simp)
      exact ⟨_, _, _, f0.trans (f2.trans (congrArg (List.cons _) (f3.trans f4))),
        startsWith_joinNl_head C [D]⟩

theorem c1_witness :
    (∃ pre ch t, (packSectionChunks String.length 5 100 sNameS [aaS, bbS, ccS, ddS] 0).1
        = pre :: ch :: t ∧ startsWithS (joinNl [bbS, ccS]) ch.text = true) ∧
    (∃ pre ch t, (packSectionChunks String.length 5 0 sNameS [aaS, bbS, ccS, ddS] 0).1
        = pre :: ch :: t ∧ startsWithS ccS ch.text = true) :=
  ⟨(c1_overlap_seeding String.length 5 100 sNameS aaS bbS ccS ddS 0
      (by decide) (by decide)).1 (by decide),
   (c1_overlap_seeding String.length 5 0 sNameS aaS bbS ccS ddS 0
      (by decide) (by decide)).2 rfl⟩

/-! ### Embedding attacher: shared lemmas -/

/-- Case analysis for one iteration of the embedding loop: the accumulator is
either left unchanged, or exactly one record derived from the chunk and a
non-empty provider result is appended. -/
theorem embedStep_mem {α : Type} (skip : Bool) (p : String → Option (List α))
    (acc : List (EmbRecord α)) (c : FlaggedChunk) (r : EmbRecord α)
    (hr : r ∈ embedStep skip p acc c) :
    r ∈ acc ∨ ∃ v, p c.text = some v ∧ v ≠ [] ∧
      r = { chunk_id := c.chunk_id, sectionName := c.sectionName, text := c.text,
            token_count := c.token_count, embedding := v, embedding_dim := v.length,
            is_premium_table := c.is_premium_table,
            priority := if c.is_premium_table then prLow else prHigh } := by
  unfold embedStep at hr
  split at hr
  · exact Or.inl hr
  · split at hr
    · exact Or.inl hr
    · rename_i v hv
      split at hr
      · exact Or.inl hr
      · rename_i hne
        rcases List.mem_append.mp hr with h | h
        · exact Or.inl h
        · simp only [List.mem_singleton] at h
          refine Or.inr ⟨v, hv, ?_, h⟩
          simpa using hne

theorem genFold_pred {α : Type} (skip : Bool) (q : String → Option (List α))
    (P : EmbRecord α → Prop)
    (hP : ∀ (c : FlaggedChunk) (v : List α), q c.text = some v → v ≠ [] →
      P { chunk_id := c.chunk_id, sectionName := c.sectionName, text := c.text,
          token_count := c.token_count, embedding := v, embedding_dim := v.length,
          is_premium_table := c.is_premium_table,
          priority := if c.is_premium_table then prLow else prHigh }) :
    ∀ (l : List FlaggedChunk) (acc : List (EmbRecord α)),
      (∀ r ∈ acc, P r) → ∀ r ∈ l.foldl (embedStep skip q) acc, P r := by
  intro l
  induction l with
  | nil => exact fun acc hacc r hr => hacc r hr
  | cons c cs ih =>
    intro acc hacc r hr
    rw [List.foldl_cons] at hr
    refine ih _ ?_ r hr
    intro r' hr'
    rcases embedStep_mem skip q acc c r' hr' with h | ⟨v, hv, hvne, rfl⟩
    · exact hacc r' h
    · exact hP c v hv hvne

/-! ### C10 -/

theorem embedStep_congr {α : Type} (skip : Bool) (p1 p2 : String → Option (List α))
    (acc : List (EmbRecord α)) (c : FlaggedChunk)
    (h : p1 c.text = p2 c.text ∨ (p1 c.text = some [] ∧ p2 c.text = none)
        ∨ (p1 c.text = none ∧ p2 c.text = some [])) :
    embedStep skip p1 acc c = embedStep skip p2 acc c := by
  rcases h with h | ⟨h1, h2⟩ | ⟨h1, h2⟩
  · unfold embedStep; rw [h]
  · unfold embedStep; rw [h1, h2]; simp
  · unfold embedStep; rw [h1, h2]; simp

/-- C10: the attacher treats an empty embedding vector exactly like a
provider failure.  A provider returning `some []` for any subset of the
chunks yields the same output as one returning `none` there (the Python
guard `if embedding:` is falsy for both), and consequently no produced
record ever has `embedding_dim = 0`. -/
theorem c10_empty_embedding_like_failure {α : Type} (skip : Bool)
    (p1 p2 : String → Option (List α)) (chunks : List FlaggedChunk)
    (hagree : ∀ t, p1 t = p2 t ∨ (p1 t = some [] ∧ p2 t = none)
        ∨ (p1 t = none ∧ p2 t = some [])) :
    generate_all_embeddings skip p1 chunks = generate_all_embeddings skip p2 chunks ∧
    ∀ r ∈ generate_all_embeddings skip p1 chunks, 0 < r.embedding_dim := by
  constructor
  · unfold generate_all_embeddings
    suffices h : ∀ (acc : List (EmbRecord α)),
        chunks.foldl (embedStep skip p1) acc = chunks.foldl (embedStep skip p2) acc from h []
    induction chunks with
    | nil => exact fun _ => rfl
    | cons c cs ih =>
      intro acc
      rw [List.foldl_cons, List.foldl_cons, embedStep_congr skip p1 p2 acc c (hagree c.text), ih]
  · intro r hr
    refine genFold_pred skip p1 (fun r => 0 < r.embedding_dim) ?_ chunks [] (by simp) r hr
    intro c v _ hvne
    simpa using List.length_pos.mpr hvne

theorem c10_witness :
    generate_all_embeddings true (fun _ => some ([] : List Int)) [helloChunk]
        = generate_all_embeddings true (fun _ => none) [helloChunk] ∧
      ∀ r ∈ generate_all_embeddings true (fun _ => some ([] : List Int)) [helloChunk],
        0 < r.embedding_dim :=
  c10_empty_embedding_like_failure true _ _ [helloChunk]
    (fun _ => Or.inr (Or.inl ⟨rfl, rfl⟩))

/-! ### C7 -/

theorem genFold_ids_success {α : Type} (p : String → Option (List α)) :
    ∀ (l : List FlaggedChunk) (acc : List (EmbRecord α)),
      (∀ c ∈ l, c.is_premium_table = false ∧ ∃ v, p c.text = some v ∧ v ≠ []) →
      (l.foldl (embedStep true p) acc).map (fun r => r.chunk_id)
        = acc.map (fun r => r.chunk_id) ++ l.map (fun c => c.chunk_id) := by
  intro l
  induction l with
  | nil => intro acc _; simp
  | cons c cs ih =>
    intro acc hl
    obtain ⟨hprem, v, hv, hvne⟩ := hl c (List.mem_cons_self c cs)
    rw [List.foldl_cons]
    have hstep : embedStep true p acc c
        = acc ++ [EmbRecord.mk c.chunk_id c.sectionName c.text c.token_count v v.length
            c.is_premium_table (if c.is_premium_table then prLow else prHigh)] := by
      unfold embedStep
      rw [hprem, hv]
      simp [hvne]
    rw [hstep, ih _ (fun c' hc' => hl c' (List.mem_cons_of_mem c hc'))]
    simp

theorem genFold_skip_fail {α : Type} (p : String → Option (List α))
    (acc : List (EmbRecord α)) (c : FlaggedChunk) (hfail : p c.text = none) :
    embedStep true p acc c = acc := by
  unfold embedStep
  rw [hfail]
  split <;> rfl

/-- C7: when the provider fails for exactly one chunk and no chunk is
skipped as a premium table, the attacher produces one record per remaining
chunk, in order, and none for the failed one; the run completes (the loop is
a total function).  Moreover every record's `priority` is `"low"` exactly
for premium-table chunks and `"high"` otherwise. -/
theorem c7_partial_failure {α : Type} (provider : String → Option (List α))
    (pre post : List FlaggedChunk) (cj : FlaggedChunk)
    (hprem : ∀ c ∈ pre ++ cj :: post, c.is_premium_table = false)
    (hfail : provider cj.text = none)
    (hsucc : ∀ c ∈ pre ++ post, ∃ v, provider c.text = some v ∧ v ≠ []) :
    (generate_all_embeddings true provider (pre ++ cj :: post)).map (fun r => r.chunk_id)
      = (pre ++ post).map (fun c => c.chunk_id) ∧
    ∀ (skip : Bool) (q : String → Option (List α)) (chs : List FlaggedChunk)
      (r : EmbRecord α), r ∈ generate_all_embeddings skip q chs →
        r.priority = (if r.is_premium_table then prLow else prHigh) := by
  constructor
  · unfold generate_all_embeddings
    rw [List.foldl_append, List.foldl_cons]
    rw [genFold_skip_fail provider _ cj hfail]
    rw [genFold_ids_success provider post _ (fun c hc =>
      ⟨hprem c (by simp [hc]), hsucc c (List.mem_append.mpr (Or.inr hc))⟩)]
    rw [genFold_ids_success provider pre [] (fun c hc =>
      ⟨hprem c (by simp [hc]), hsucc c (List.mem_append.mpr (Or.inl hc))⟩)]
    simp
  · intro skip q chs r hr
    refine genFold_pred skip q
      (fun r => r.priority = (if r.is_premium_table then prLow else prHigh)) ?_ chs []
      (by simp) r hr
    intro c v _ _
    rfl

theorem c7_witness :
    (generate_all_embeddings true provB ([fcA] ++ fcB :: [fcC])).map (fun r => r.chunk_id)
      = ([fcA] ++ [fcC]).map (fun c => c.chunk_id) :=
  (c7_partial_failure provB [fcA] [fcC] fcB (by decide) (by decide)
    (by
      intro c hc
      simp only [List.mem_append, List.mem_singleton] at hc
      rcases hc with rfl | rfl
      · exact ⟨[1], by decide, by decide⟩
      · exact ⟨[1], by decide, by decide⟩)).1

/-! ### C4: clause-range chain lemmas -/

theorem intIndexStr_sub (i m : Nat) (hm : m ≤ i) (h1 : 1 ≤ i) :
    intIndexStr ((i : Int) - (m : Int)) ((i : Int) - 1) = rangeFmt (i - m, i - 1) := by
  rw [← Nat.cast_sub hm, ← Nat.cast_one (R := Int), ← Nat.cast_sub h1]
  rfl

theorem chainB_cons_elim (ov n : Nat) (f : Bool) (st s e : Nat) (rest : List (Nat × Nat))
    (h : chainB ov n f st ((s, e) :: rest) = true) :
    s = st ∧ s ≤ e ∧ (f = true ∨ ov = 0 ∨ s < e) ∧
      (rest = [] → e + 1 = n) ∧
      (rest ≠ [] → chainB ov n false (if 0 < ov then e else e + 1) rest = true) := by
  cases rest with
  | nil =>
    have h' : ((s == st && decide (s ≤ e) && (f || ov == 0 || decide (s < e))) &&
        (e + 1 == n)) = true := h
    rw [Bool.and_eq_true, Bool.and_eq_true, Bool.and_eq_true] at h'
    obtain ⟨⟨⟨hbeq, hdec⟩, hflagB⟩, hend⟩ := h'
    rw [Bool.or_eq_true, Bool.or_eq_true] at hflagB
    refine ⟨beq_iff_eq.mp hbeq, of_decide_eq_true hdec, ?_, fun _ => beq_iff_eq.mp hend,
      fun hx => absurd rfl hx⟩
    rcases hflagB with (h3 | h3) | h3
    · exact Or.inl h3
    · exact Or.inr (Or.inl (beq_iff_eq.mp h3))
    · exact Or.inr (Or.inr (of_decide_eq_true h3))
  | cons r2 rest2 =>
    have h' : ((s == st && decide (s ≤ e) && (f || ov == 0 || decide (s < e))) &&
        chainB ov n false (if 0 < ov then e else e + 1) (r2 :: rest2)) = true := h
    rw [Bool.and_eq_true, Bool.and_eq_true] at h'
    obtain ⟨⟨hh, hflagB⟩, hch⟩ := h'
    rw [Bool.and_eq_true] at hh
    obtain ⟨hbeq, hdec⟩ := hh
    rw [Bool.or_eq_true, Bool.or_eq_true] at hflagB
    refine ⟨beq_iff_eq.mp hbeq, of_decide_eq_true hdec, ?_,
      fun hx => (List.cons_ne_nil r2 rest2 hx).elim, fun _ => hch⟩
    rcases hflagB with (h3 | h3) | h3
    · exact Or.inl h3
    · exact Or.inr (Or.inl (beq_iff_eq.mp h3))
    · exact Or.inr (Or.inr (of_decide_eq_true h3))

theorem chainB_intro (ov n : Nat) (f : Bool) (st s e : Nat) (rest : List (Nat × Nat))
    (h1 : s = st) (h2 : s ≤ e) (h3 : f = true ∨ ov = 0 ∨ s < e)
    (h4 : rest = [] → e + 1 = n)
    (h5 : rest ≠ [] → chainB ov n false (if 0 < ov then e else e + 1) rest = true) :
    chainB ov n f st ((s, e) :: rest) = true := by
  have hflagB : (f || ov == 0 || decide (s < e)) = true := by
    rw [Bool.or_eq_true, Bool.or_eq_true]
    rcases h3 with h | h | h
    · exact Or.inl (Or.inl h)
    · exact Or.inl (Or.inr (beq_iff_eq.mpr h))
    · exact Or.inr (decide_eq_true h)
  cases rest with
  | nil =>
    have hb : ((s == st && decide (s ≤ e) && (f || ov == 0 || decide (s < e))) &&
        (e + 1 == n)) = true := by
      rw [Bool.and_eq_true, Bool.and_eq_true, Bool.and_eq_true]
      exact ⟨⟨⟨beq_iff_eq.mpr h1, decide_eq_true h2⟩, hflagB⟩, beq_iff_eq.mpr (h4 rfl)⟩
    exact hb
  | cons r2 rest2 =>
    have hb : ((s == st && decide (s ≤ e) && (f || ov == 0 || decide (s < e))) &&
        chainB ov n false (if 0 < ov then e else e + 1) (r2 :: rest2)) = true := by
      rw [Bool.and_eq_true, Bool.and_eq_true]
      exact ⟨⟨by rw [Bool.and_eq_true]; exact ⟨beq_iff_eq.mpr h1, decide_eq_true h2⟩,
        hflagB⟩, h5 (by simp)⟩
    exact hb

theorem chainB_bounds (ov n : Nat) :
    ∀ (rs : List (Nat × Nat)) (f : Bool) (st : Nat), chainB ov n f st rs = true →
      ∀ r ∈ rs, st ≤ r.1 ∧ r.1 ≤ r.2 ∧ r.2 < n := by
  intro rs
  induction rs with
  | nil => intro f st h; simp [chainB] at h
  | cons r0 rest ih =>
    intro f st h r' hr'
    obtain ⟨s, e⟩ := r0
    obtain ⟨hs, hse, _, hnil, hcons⟩ := chainB_cons_elim ov n f st s e rest h
    rcases List.mem_cons.mp hr' with rfl | hmem
    · refine ⟨by omega, by simpa using hse, ?_⟩
      cases rest with
      | nil => have := hnil rfl; omega
      | cons r2 rest2 =>
        have hch := hcons (by simp)
        have hb := ih false (if 0 < ov then e else e + 1) hch r2 (List.mem_cons_self r2 rest2)
        have hee : e ≤ (if 0 < ov then e else e + 1) := by split <;> omega
        omega
    · cases rest with
      | nil => simp at hmem
      | cons r2 rest2 =>
        have hch := hcons (by simp)
        have hb := ih false (if 0 < ov then e else e + 1) hch r' hmem
        have hee : e ≤ (if 0 < ov then e else e + 1) := by split <;> omega
        exact ⟨by omega, hb.2.1, hb.2.2⟩

theorem chainB_coverage (ov n : Nat) :
    ∀ (rs : List (Nat × Nat)) (f : Bool) (st : Nat), chainB ov n f st rs = true →
      ∀ j, st ≤ j → j < n → ∃ r ∈ rs, r.1 ≤ j ∧ j ≤ r.2 := by
  intro rs
  induction rs with
  | nil => intro f st h; simp [chainB] at h
  | cons r0 rest ih =>
    intro f st h j hstj hjn
    obtain ⟨s, e⟩ := r0
    obtain ⟨hs, hse, _, hnil, hcons⟩ := chainB_cons_elim ov n f st s e rest h
    by_cases hje : j ≤ e
    · exact ⟨(s, e), List.mem_cons_self _ _, by omega, hje⟩
    · cases rest with
      | nil => have := hnil rfl; omega
      | cons r2 rest2 =>
        have hch := hcons (by simp)
        have hst' : (if 0 < ov then e else e + 1) ≤ j := by split <;> omega
        obtain ⟨r, hr, h1, h2⟩ := ih false _ hch j hst' hjn
        exact ⟨r, List.mem_cons_of_mem _ hr, h1, h2⟩

theorem countMem_cons (j s e : Nat) (rest : List (Nat × Nat)) :
    countMem j ((s, e) :: rest) = (if s ≤ j ∧ j ≤ e then 1 else 0) + countMem j rest := by
  by_cases h1 : s ≤ j
  · by_cases h2 : j ≤ e
    · simp [countMem, List.filter_cons, h1, h2]
      omega
    · simp [countMem, List.filter_cons, h1, h2]
  · simp [countMem, List.filter_cons, h1]

theorem countMem_zero_of_lt (j : Nat) :
    ∀ (rs : List (Nat × Nat)), (∀ r ∈ rs, j < r.1) → countMem j rs = 0 := by
  intro rs
  induction rs with
  | nil => intro _; rfl
  | cons r0 rest ih =>
    intro h
    obtain ⟨s, e⟩ := r0
    rw [countMem_cons]
    have hs := h (s, e) (List.mem_cons_self _ _)
    rw [if_neg (by omega), ih (fun r hr => h r (List.mem_cons_of_mem _ hr))]

theorem countMem_pos (j : Nat) (rs : List (Nat × Nat)) (r : Nat × Nat) (hr : r ∈ rs)
    (h1 : r.1 ≤ j) (h2 : j ≤ r.2) : 0 < countMem j rs := by
  have hmem : r ∈ rs.filter (fun r => decide (r.1 ≤ j) && decide (j ≤ r.2)) :=
    List.mem_filter.mpr ⟨hr, by simp [h1, h2]⟩
  exact List.length_pos.mpr (List.ne_nil_of_mem hmem)

theorem chainB_count (ov n : Nat) :
    ∀ (rs : List (Nat × Nat)) (f : Bool) (st : Nat), chainB ov n f st rs = true →
      ∀ j, countMem j rs ≤ 2 ∧ (countMem j rs = 2 → 0 < ov) := by
  intro rs
  induction rs with
  | nil => intro f st h; simp [chainB] at h
  | cons r0 rest ih =>
    intro f st h j
    obtain ⟨s, e⟩ := r0
    obtain ⟨hs, hse, hflag, hnil, hcons⟩ := chainB_cons_elim ov n f st s e rest h
    rw [countMem_cons]
    cases rest with
    | nil =>
      have hc : countMem j ([] : List (Nat × Nat)) = 0 := rfl
      rw [hc]
      constructor
      · split <;> omega
      · split <;> omega
    | cons r2 rest2 =>
      obtain ⟨s2, e2⟩ := r2
      have hch := hcons (by simp)
      obtain ⟨hs2, hse2, hflag2, hnil2, hcons2⟩ :=
        chainB_cons_elim ov n false _ s2 e2 rest2 hch
      have hb := chainB_bounds ov n ((s2, e2) :: rest2) false _ hch
      have ihr := ih false _ hch j
      by_cases hj1 : s ≤ j ∧ j ≤ e
      · rw [if_pos hj1]
        by_cases hje : j = e
        · by_cases hov : 0 < ov
          · -- overlap: the next chunk starts exactly at e, later ones strictly after
            have hs2e : s2 = e := by rw [hs2, if_pos hov]
            have hrest2 : countMem j rest2 = 0 := by
              apply countMem_zero_of_lt
              intro r hr
              cases rest2 with
              | nil => simp at hr
              | cons r3 rest3 =>
                have hch2 := hcons2 (by simp)
                have hb2 := chainB_bounds ov n (r3 :: rest3) false _ hch2 r hr
                have hflag2' : s2 < e2 := by
                  rcases hflag2 with h' | h' | h'
                  · simp at h'
                  · omega
                  · exact h'
                have hee2 : e2 ≤ (if 0 < ov then e2 else e2 + 1) := by split <;> omega
                omega
            rw [countMem_cons, hrest2]
            constructor
            · split <;> omega
            · intro _; exact hov
          · -- no overlap: the next range starts at e + 1 > j
            have hrest : countMem j ((s2, e2) :: rest2) = 0 := by
              apply countMem_zero_of_lt
              intro r hr
              have hbr := hb r hr
              have he1 : (if 0 < ov then e else e + 1) = e + 1 := by rw [if_neg hov]
              omega
            rw [hrest]
            omega
        · -- j < e: every later range starts at e or beyond
          have hrest : countMem j ((s2, e2) :: rest2) = 0 := by
            apply countMem_zero_of_lt
            intro r hr
            have hbr := hb r hr
            have hee : e ≤ (if 0 < ov then e else e + 1) := by split <;> omega
            omega
          rw [hrest]
          omega
      · rw [if_neg hj1]
        constructor
        · have := ihr.1
          omega
        · intro h2
          exact ihr.2 (by omega)

/-- The per-section packing loop, run from a reachable state (a non-empty
buffer holding the clauses `i - cc.length … i - 1`), emits chunks whose
`clause_index` strings form exactly a range chain. -/
theorem packLoop_chain (tok : String → Nat) (target ov : Nat) (sname : String) (n : Nat) :
    ∀ (rest : List String) (cc : List String) (i ct cid : Nat) (first : Bool),
      cc ≠ [] → i + rest.length = n → cc.length ≤ i →
      (first = false → 0 < ov → 2 ≤ cc.length) →
      ∃ ranges : List (Nat × Nat),
        (packLoop tok target ov sname n rest i cc ct cid).1.map Chunk.clause_index
          = ranges.map rangeFmt ∧
        chainB ov n first (i - cc.length) ranges = true := by
  intro rest
  induction rest with
  | nil =>
    intro cc i ct cid first hcc hn hlen hdeg
    have hl : 1 ≤ cc.length := List.length_pos.mpr hcc
    have hin : i = n := by simpa using hn
    refine ⟨[(n - cc.length, n - 1)], ?_, ?_⟩
    · rw [packLoop_fst_nil_flush tok target ov sname n i cc ct cid hcc]
      simp only [List.map_cons, List.map_nil]
      congr 1
      exact intIndexStr_sub n cc.length (by omega) (by omega)
    · refine chainB_intro ov n first (i - cc.length) (n - cc.length) (n - 1) []
        (by omega) (by omega) ?_ (fun _ => by omega) (fun hx => absurd rfl hx)
      cases first with
      | true => exact Or.inl rfl
      | false =>
        by_cases hov : 0 < ov
        · have := hdeg rfl hov
          exact Or.inr (Or.inr (by omega))
        · exact Or.inr (Or.inl (by omega))
  | cons clause rest ih =>
    intro cc i ct cid first hcc hn hlen hdeg
    have hl : 1 ≤ cc.length := List.length_pos.mpr hcc
    have hn' : (i + 1) + rest.length = n := by simp at hn; omega
    by_cases hcl : target < ct + tok clause
    · by_cases hov : 0 < ov
      · rw [packLoop_fst_close_ov tok target ov sname n clause rest i cc ct cid hov hcl hcc]
        obtain ⟨ranges', hmap, hchain⟩ := ih [cc.getLast hcc, clause] (i + 1)
          (tok (joinNl [cc.getLast hcc, clause])) (cid + 1) false (by simp) hn'
          (by simp only [List.length_cons, List.length_nil]; omega)
          (fun _ _ => by simp)
        have hst : (i + 1) - ([cc.getLast hcc, clause] : List String).length = i - 1 := by
          simp only [List.length_cons, List.length_nil]
          omega
        rw [hst] at hchain
        have hr' : ranges' ≠ [] := by
          intro h0
          rw [h0] at hchain
          simp [chainB] at hchain
        obtain ⟨rh, rt, rfl⟩ := List.exists_cons_of_ne_nil hr'
        refine ⟨(i - cc.length, i - 1) :: rh :: rt, ?_, ?_⟩
        · simp only [List.map_cons]
          congr 1
          exact intIndexStr_sub i cc.length (by omega) (by omega)
        · refine chainB_intro ov n first (i - cc.length) (i - cc.length) (i - 1) (rh :: rt)
            rfl (by omega) ?_ (fun hx => nomatch hx) (fun _ => by rw [if_pos hov]; exact hchain)
          cases first with
          | true => exact Or.inl rfl
          | false =>
            have := hdeg rfl hov
            exact Or.inr (Or.inr (by omega))
      · have hov0 : ov = 0 := by omega
        subst hov0
        rw [packLoop_fst_close_noov tok target sname n clause rest i cc ct cid hcl hcc]
        obtain ⟨ranges', hmap, hchain⟩ := ih [clause] (i + 1) (tok clause) (cid + 1) false
          (by simp) hn'
          (by simp only [List.length_cons, List.length_nil]; omega)
          (fun _ h0 => absurd h0 (by omega))
        have hst : (i + 1) - ([clause] : List String).length = i := by
          simp only [List.length_cons, List.length_nil]
          omega
        rw [hst] at hchain
        have hr' : ranges' ≠ [] := by
          intro h0
          rw [h0] at hchain
          simp [chainB] at hchain
        obtain ⟨rh, rt, rfl⟩ := List.exists_cons_of_ne_nil hr'
        refine ⟨(i - cc.length, i - 1) :: rh :: rt, ?_, ?_⟩
        · simp only [List.map_cons]
          congr 1
          exact intIndexStr_sub i cc.length (by omega) (by omega)
        · refine chainB_intro 0 n first (i - cc.length) (i - cc.length) (i - 1) (rh :: rt)
            rfl (by omega) (Or.inr (Or.inl rfl)) (fun hx => nomatch hx) ?_
          intro _
          rw [if_neg (by omega)]
          have he : i - 1 + 1 = i := by omega
          rw [he]
          exact hchain
    · rw [packLoop_fst_cons_append tok target ov sname n clause rest i cc ct cid
        (fun hx => hcl hx.1)]
      obtain ⟨ranges', hmap, hchain⟩ := ih (cc ++ [clause]) (i + 1) (ct + tok clause) cid first
        (by simp) hn'
        (by simp only [List.length_append, List.length_cons, List.length_nil]; omega)
        (fun _ _ => by simp only [List.length_append, List.length_cons, List.length_nil]; omega)
      have hst : (i + 1) - (cc ++ [clause] : List String).length = i - cc.length := by
        simp only [List.length_append, List.length_cons, List.length_nil]
        omega
      rw [hst] at hchain
      exact ⟨ranges', hmap, hchain⟩

/-- C4: for every section, the `clause_index` ranges of its chunks form a
chain: the first starts at clause 0, the last ends at the last clause,
consecutive ranges share exactly their endpoint when `overlap > 0` and abut
when `overlap = 0` (that is the content of `chainB`).  Hence every clause of
the section is referenced by at least one chunk and by at most two, and a
clause referenced twice (an overlap carry) can only occur with
`overlap > 0`: no clause is silently dropped and none appears in more than
two chunks. -/
theorem c4_clause_coverage (tok : String → Nat) (target ov : Nat) (sname : String)
    (clauses : List String) (cid : Nat) (hne : clauses ≠ []) :
    ∃ ranges : List (Nat × Nat),
      (packSectionChunks tok target ov sname clauses cid).1.map Chunk.clause_index
        = ranges.map rangeFmt ∧
      chainB ov clauses.length true 0 ranges = true ∧
      ∀ j, j < clauses.length → 0 < countMem j ranges ∧ countMem j ranges ≤ 2 ∧
        (countMem j ranges = 2 → 0 < ov) := by
  obtain ⟨c, cs, rfl⟩ := List.exists_cons_of_ne_nil hne
  rw [packSectionChunks]
  rw [packLoop_fst_cons_append tok target ov sname (c :: cs).length c cs 0 [] 0 cid (by simp)]
  obtain ⟨ranges, hmap, hchain⟩ := packLoop_chain tok target ov sname (c :: cs).length
    cs ([] ++ [c]) 1 (0 + tok c) cid true (by simp)
    (by simp only [List.length_cons]; omega) (by simp) (fun h _ => nomatch h)
  have hst : 1 - ([] ++ [c] : List String).length = 0 := by simp
  rw [hst] at hchain
  refine ⟨ranges, hmap, hchain, ?_⟩
  intro j hj
  refine ⟨?_, (chainB_count ov (c :: cs).length ranges true 0 hchain j).1,
    (chainB_count ov (c :: cs).length ranges true 0 hchain j).2⟩
  obtain ⟨r, hr, h1, h2⟩ := chainB_coverage ov (c :: cs).length ranges true 0 hchain j
    (by omega) hj
  exact countMem_pos j ranges r hr h1 h2

theorem c4_witness :
    ([aaS, bbS, ccS, ddS] : List String) ≠ [] ∧
      ∃ ranges : List (Nat × Nat),
        (packSectionChunks String.length 5 100 sNameS [aaS, bbS, ccS, ddS] 0).1.map
            Chunk.clause_index = ranges.map rangeFmt ∧
        chainB 100 ([aaS, bbS, ccS, ddS] : List String).length true 0 ranges = true ∧
        ∀ j, j < ([aaS, bbS, ccS, ddS] : List String).length →
          0 < countMem j ranges ∧ countMem j ranges ≤ 2 ∧
            (countMem j ranges = 2 → 0 < 100) :=
  ⟨by decide, c4_clause_coverage String.length 5 100 sNameS [aaS, bbS, ccS, ddS] 0 (by decide)⟩

/-! ### C8 -/

/-- C8 (code-bug evidence): on the empty input text the chunker's own run
does raise.  `split_into_sections` yields no sections, so the chunk list is
empty, and `save_chunks` computes `total_tokens / len(chunks)` with
`len(chunks) = 0`, raising `ZeroDivisionError` — contradicting the claim
that for any input text, including the empty string, every step after
loading is total. -/
theorem c8_empty_input_zero_division (tok : String → Nat) :
    chunkRun tok 600 100 emptyS = Except.error zeroDivErrName := rfl

/-! ### C5: substring toolbox -/

theorem nilPrefix {α : Type} (l : List α) : [] <+: l := ⟨l, rfl⟩

theorem prefixWithin {α : Type} {l1 l2 : List α} (h : l1 <+: l2) : l1 <:+: l2 := by
  obtain ⟨t, rfl⟩ := h
  exact ⟨[], t, rfl⟩

theorem suffixWithin {α : Type} {l1 l2 : List α} (h : l1 <:+ l2) : l1 <:+: l2 := by
  obtain ⟨s, rfl⟩ := h
  exact ⟨s, [], by simp⟩

theorem infixCons {α : Type} {l1 l2 : List α} (a : α) (h : l1 <:+: l2) : l1 <:+: a :: l2 := by
  obtain ⟨s, t, rfl⟩ := h
  exact ⟨a :: s, t, rfl⟩

theorem infixTrans {α : Type} {l1 l2 l3 : List α} (h1 : l1 <:+: l2) (h2 : l2 <:+: l3) :
    l1 <:+: l3 := by
  obtain ⟨s1, t1, rfl⟩ := h1
  obtain ⟨s2, t2, rfl⟩ := h2
  exact ⟨s2 ++ s1, t1 ++ t2, by simp⟩

theorem consPrefixElim {α : Type} {m0 : α} {m' : List α} {a : α} {l : List α}
    (h : m0 :: m' <+: a :: l) : m0 = a ∧ m' <+: l := by
  obtain ⟨t, ht⟩ := h
  rw [List.cons_append] at ht
  injection ht with h1 h2
  exact ⟨h1, t, h2⟩

theorem consPrefixIntro {α : Type} {m' l : List α} (a : α) (h : m' <+: l) :
    a :: m' <+: a :: l := by
  obtain ⟨t, rfl⟩ := h
  exact ⟨t, rfl⟩

theorem infixConsElim {α : Type} {m : List α} {a : α} {l : List α} (h : m <:+: a :: l) :
    m <+: a :: l ∨ m <:+: l := by
  obtain ⟨s, t, hst⟩ := h
  cases s with
  | nil => exact Or.inl ⟨t, by simpa using hst⟩
  | cons s0 s' =>
    rw [List.cons_append] at hst
    injection hst with h1 h2
    exact Or.inr ⟨s', t, h2⟩

theorem startsWithL_iff : ∀ (p l : List Char), startsWithL p l = true ↔ p <+: l := by
  intro p
  induction p with
  | nil =>
    intro l
    constructor
    · intro _; exact nilPrefix l
    · intro _; rfl
  | cons p0 ps ih =>
    intro l
    cases l with
    | nil =>
      constructor
      · intro h; simp [startsWithL] at h
      · intro h
        obtain ⟨t, ht⟩ := h
        simp at ht
    | cons c cs =>
      constructor
      · intro h
        rw [show startsWithL (p0 :: ps) (c :: cs)
            = (decide (p0 = c) && startsWithL ps cs) from rfl, Bool.and_eq_true] at h
        obtain ⟨h1, h2⟩ := h
        have h1' := of_decide_eq_true h1
        subst h1'
        exact consPrefixIntro p0 ((ih cs).mp h2)
      · intro h
        obtain ⟨h1, h2⟩ := consPrefixElim h
        subst h1
        rw [show startsWithL (p0 :: ps) (p0 :: cs)
            = (decide (p0 = p0) && startsWithL ps cs) from rfl, Bool.and_eq_true]
        exact ⟨decide_eq_true rfl, (ih cs).mpr h2⟩

theorem containsL_iff (p : List Char) : ∀ l, containsL p l = true ↔ p <:+: l := by
  intro l
  induction l with
  | nil =>
    rw [show containsL p [] = startsWithL p [] from rfl]
    constructor
    · intro h
      exact prefixWithin ((startsWithL_iff p []).mp h)
    · intro h
      obtain ⟨s, t, hst⟩ := h
      have hp : p = [] := by
        have hlen := congrArg List.length hst
        simp at hlen
        rcases hlen with ⟨-, h2, -⟩
        exact h2
      subst hp
      rfl
  | cons c cs ih =>
    rw [show containsL p (c :: cs) = (startsWithL p (c :: cs) || containsL p cs) from rfl,
      Bool.or_eq_true]
    constructor
    · rintro (h | h)
      · exact prefixWithin ((startsWithL_iff p _).mp h)
      · exact infixCons c (ih.mp h)
    · intro h
      rcases infixConsElim h with h | h
      · exact Or.inl ((startsWithL_iff p _).mpr h)
      · exact Or.inr (ih.mpr h)

/-- Pieces of the newline splitter: the first is a prefix of the input and
every piece is an infix. -/
theorem reSplitNl_structure (p : List Char → Bool) :
    ∀ l : List Char, (∀ piece ∈ reSplitNl p l, piece <:+: l) ∧
      (∀ h t, reSplitNl p l = h :: t → h <+: l) := by
  intro l
  induction l with
  | nil =>
    constructor
    · intro piece hp
      simp [reSplitNl] at hp
      subst hp
      exact ⟨[], [], rfl⟩
    · intro h t hht
      rw [show reSplitNl p [] = [[]] from rfl] at hht
      injection hht with h1 _
      cases h1
      exact nilPrefix []
  | cons c rest ih =>
    by_cases hsplit : (decide (c = '\n') && p rest) = true
    · have he : reSplitNl p (c :: rest) = [] :: reSplitNl p rest := by
        rw [reSplitNl, if_pos hsplit]
      constructor
      · intro piece hp
        rw [he] at hp
        rcases List.mem_cons.mp hp with rfl | hp2
        · exact ⟨[], c :: rest, by simp⟩
        · exact infixCons c (ih.1 piece hp2)
      · intro h t hht
        rw [he] at hht
        injection hht with h1 _
        rw [← h1]
        exact nilPrefix _
    · cases hr : reSplitNl p rest with
      | nil =>
        have he : reSplitNl p (c :: rest) = [[c]] := by
          rw [reSplitNl, if_neg hsplit, hr]
        constructor
        · intro piece hp
          rw [he] at hp
          simp at hp
          subst hp
          exact ⟨[], rest, rfl⟩
        · intro h t hht
          rw [he] at hht
          injection hht with h1 _
          rw [← h1]
          exact consPrefixIntro c (nilPrefix rest)
      | cons h0 t0 =>
        have he : reSplitNl p (c :: rest) = (c :: h0) :: t0 := by
          rw [reSplitNl, if_neg hsplit, hr]
        have hh0 : h0 <+: rest := ih.2 h0 t0 hr
        constructor
        · intro piece hp
          rw [he] at hp
          rcases List.mem_cons.mp hp with rfl | hp2
          · exact prefixWithin (consPrefixIntro c hh0)
          · exact infixCons c (ih.1 piece (by rw [hr]; exact List.mem_cons_of_mem _ hp2))
        · intro h t hht
          rw [he] at hht
          injection hht with h1 _
          rw [← h1]
          exact consPrefixIntro c hh0

/-- Pieces of the sentence splitter are infixes of the input. -/
theorem sentAuxF_structure :
    ∀ (fuel : Nat) (prev : Char) (l : List Char),
      (∀ piece ∈ sentAuxF fuel prev l, piece <:+: l) ∧
      (∀ h t, sentAuxF fuel prev l = h :: t → h <+: l) := by
  intro fuel
  induction fuel with
  | zero =>
    intro prev l
    constructor
    · intro piece hp
      simp [sentAuxF] at hp
      subst hp
      exact ⟨[], l, by simp⟩
    · intro h t hht
      rw [show sentAuxF 0 prev l = [[]] from rfl] at hht
      injection hht with h1 _
      rw [← h1]
      exact nilPrefix l
  | succ fuel ih =>
    intro prev l
    cases l with
    | nil =>
      constructor
      · intro piece hp
        simp [sentAuxF] at hp
        subst hp
        exact ⟨[], [], rfl⟩
      · intro h t hht
        rw [show sentAuxF (fuel + 1) prev [] = [[]] from rfl] at hht
        injection hht with h1 _
        cases h1
        exact nilPrefix []
    | cons c rest =>
      by_cases hm : (isSentEnd prev && pyIsSpace c && upperAfterRun rest) = true
      · have he : sentAuxF (fuel + 1) prev (c :: rest)
            = [] :: sentAuxF fuel ' ' (rest.dropWhile pyIsSpace) := by
          rw [sentAuxF, if_pos hm]
        have hsuf : rest.dropWhile pyIsSpace <:+ rest := List.dropWhile_suffix pyIsSpace
        constructor
        · intro piece hp
          rw [he] at hp
          rcases List.mem_cons.mp hp with rfl | hp2
          · exact ⟨[], c :: rest, by simp⟩
          · exact infixCons c (infixTrans ((ih ' ' _).1 piece hp2) (suffixWithin hsuf))
        · intro h t hht
          rw [he] at hht
          injection hht with h1 _
          rw [← h1]
          exact nilPrefix _
      · cases hr : sentAuxF fuel c rest with
        | nil =>
          have he : sentAuxF (fuel + 1) prev (c :: rest) = [[c]] := by
            rw [sentAuxF, if_neg hm, hr]
          constructor
          · intro piece hp
            rw [he] at hp
            simp at hp
            subst hp
            exact ⟨[], rest, rfl⟩
          · intro h t hht
            rw [he] at hht
            injection hht with h1 _
            rw [← h1]
            exact consPrefixIntro c (nilPrefix rest)
        | cons h0 t0 =>
          have he : sentAuxF (fuel + 1) prev (c :: rest) = (c :: h0) :: t0 := by
            rw [sentAuxF, if_neg hm, hr]
          have hh0 : h0 <+: rest := (ih c rest).2 h0 t0 hr
          constructor
          · intro piece hp
            rw [he] at hp
            rcases List.mem_cons.mp hp with rfl | hp2
            · exact prefixWithin (consPrefixIntro c hh0)
            · exact infixCons c ((ih c rest).1 piece (by rw [hr]; exact List.mem_cons_of_mem _ hp2))
          · intro h t hht
            rw [he] at hht
            injection hht with h1 _
            rw [← h1]
            exact consPrefixIntro c hh0

theorem pyStripL_within (l : List Char) : pyStripL l <:+: l := by
  have h1 : l.dropWhile pyIsSpace <:+ l := List.dropWhile_suffix pyIsSpace
  have h2 : (l.dropWhile pyIsSpace).reverse.dropWhile pyIsSpace <:+
      (l.dropWhile pyIsSpace).reverse := List.dropWhile_suffix pyIsSpace
  have h3 : pyStripL l <+: l.dropWhile pyIsSpace := by
    rw [← List.reverse_suffix, pyStripL, List.reverse_reverse]
    exact h2
  exact infixTrans (prefixWithin h3) (suffixWithin h1)

/-! ### C5: clause provenance -/

theorem identify_fold_within (tok : String → Nat) (target : Nat) (base : List Char) :
    ∀ (parts : List (List Char)) (acc : List String),
      (∀ c ∈ acc, c.data <:+: base) → (∀ part ∈ parts, part <:+: base) →
      ∀ c ∈ parts.foldl (fun clauses part =>
          let sp := pyStripL part
          if sp = [] then clauses
          else if target < tok (String.mk sp) then
            clauses ++ (sentSplit sp).map String.mk
          else clauses ++ [String.mk sp]) acc, c.data <:+: base := by
  intro parts
  induction parts with
  | nil => exact fun acc hacc _ c hc => hacc c hc
  | cons part parts ih =>
    intro acc hacc hparts c hc
    rw [List.foldl_cons] at hc
    refine ih _ ?_ (fun q hq => hparts q (List.mem_cons_of_mem _ hq)) c hc
    intro c' hc'
    have hpart : part <:+: base := hparts part (List.mem_cons_self _ _)
    have hsp : pyStripL part <:+: base := infixTrans (pyStripL_within part) hpart
    have hc'' : c' ∈ (if pyStripL part = [] then acc
        else if target < tok (String.mk (pyStripL part)) then
          acc ++ (sentSplit (pyStripL part)).map String.mk
        else acc ++ [String.mk (pyStripL part)]) := hc'
    split at hc''
    · exact hacc c' hc''
    · split at hc''
      · rcases List.mem_append.mp hc'' with h | h
        · exact hacc c' h
        · obtain ⟨piece, hpiece, rfl⟩ := List.mem_map.mp h
          have hpin : piece <:+: pyStripL part := (sentAuxF_structure _ _ _).1 piece hpiece
          exact infixTrans hpin hsp
      · rcases List.mem_append.mp hc'' with h | h
        · exact hacc c' h
        · rw [List.mem_singleton] at h
          subst h
          exact hsp

theorem identify_clauses_within (tok : String → Nat) (target : Nat) (text : String) :
    ∀ c ∈ identify_clauses tok target text, c.data <:+: text.data := by
  intro c hc
  rw [identify_clauses] at hc
  split at hc
  · obtain ⟨p, hp, rfl⟩ := List.mem_map.mp hc
    have hp2 := List.mem_filter.mp hp
    obtain ⟨piece, hpiece, rfl⟩ := List.mem_map.mp hp2.1
    exact infixTrans (pyStripL_within piece)
      ((reSplitNl_structure tableAhead text.data).1 piece hpiece)
  · exact identify_fold_within tok target text.data _ [] (by simp)
      (fun part hpart => (reSplitNl_structure bulletAhead text.data).1 part hpart) c hc

/-- Every chunk emitted by the packing loop carries the section name it was
called with, and its text is the newline join of clauses drawn from the
current buffer or the remaining clause list. -/
theorem packLoop_text_join (tok : String → Nat) (target ov : Nat) (sname : String) (n : Nat) :
    ∀ (rest : List String) (i : Nat) (cc : List String) (ct cid : Nat),
      ∀ ch ∈ (packLoop tok target ov sname n rest i cc ct cid).1,
        ch.sectionName = sname ∧
          ∃ cls : List String, (∀ c ∈ cls, c ∈ cc ∨ c ∈ rest) ∧ ch.text = joinNl cls := by
  intro rest
  induction rest with
  | nil =>
    intro i cc ct cid ch hch
    rw [packLoop] at hch
    split at hch
    · simp at hch
    · simp at hch
      subst hch
      exact ⟨rfl, cc, fun c hc => Or.inl hc, rfl⟩
  | cons clause rest ih =>
    intro i cc ct cid ch hch
    rw [packLoop] at hch
    split at hch
    · rename_i h
      simp only [List.mem_cons] at hch
      rcases hch with rfl | hch2
      · exact ⟨rfl, cc, fun c hc => Or.inl hc, rfl⟩
      · obtain ⟨hname, cls, hmem, htext⟩ := ih (i + 1) _ _ (cid + 1) ch hch2
        refine ⟨hname, cls, ?_, htext⟩
        intro c hc
        rcases hmem c hc with hin | hin
        · split at hin
          · simp at hin
            rcases hin with rfl | rfl
            · exact Or.inl (List.getLast_mem h.2)
            · exact Or.inr (List.mem_cons_self _ _)
          · simp at hin
            subst hin
            exact Or.inr (List.mem_cons_self _ _)
        · exact Or.inr (List.mem_cons_of_mem _ hin)
    · obtain ⟨hname, cls, hmem, htext⟩ := ih (i + 1) _ _ cid ch hch
      refine ⟨hname, cls, ?_, htext⟩
      intro c hc
      rcases hmem c hc with hin | hin
      · rcases List.mem_append.mp hin with h | h
        · exact Or.inl h
        · rw [List.mem_singleton] at h
          subst h
          exact Or.inr (List.mem_cons_self _ _)
      · exact Or.inr (List.mem_cons_of_mem _ hin)

/-- Every chunk of `create_chunks` originates in a single input section: it
carries that section's name and its text is the newline join of clauses all
identified from that one section's text. -/
theorem createFold_origin (tok : String → Nat) (target ov : Nat) (SS : List Section) :
    ∀ (ss : List Section), (∀ sec ∈ ss, sec ∈ SS) →
      ∀ (acc : List Chunk × Nat),
      (∀ ch ∈ acc.1, ∃ sec ∈ SS, ch.sectionName = sec.sectionName ∧ ∃ cls : List String,
        (∀ c ∈ cls, c ∈ identify_clauses tok target sec.text) ∧ ch.text = joinNl cls) →
      ∀ ch ∈ (ss.foldl (fun acc sd =>
          let res := packSectionChunks tok target ov sd.sectionName
            (identify_clauses tok target sd.text) acc.2
          (acc.1 ++ res.1, res.2)) acc).1,
        ∃ sec ∈ SS, ch.sectionName = sec.sectionName ∧ ∃ cls : List String,
          (∀ c ∈ cls, c ∈ identify_clauses tok target sec.text) ∧ ch.text = joinNl cls := by
  intro ss
  induction ss with
  | nil => exact fun _ acc hacc ch hch => hacc ch hch
  | cons sd ss ih =>
    intro hss acc hacc ch hch
    rw [List.foldl_cons] at hch
    refine ih (fun sec hsec => hss sec (List.mem_cons_of_mem _ hsec)) _ ?_ ch hch
    intro ch' hch'
    rcases List.mem_append.mp hch' with h | h
    · exact hacc ch' h
    · obtain ⟨hname, cls, hmem, htext⟩ :=
        packLoop_text_join tok target ov sd.sectionName _ _ _ _ _ _ ch' h
      refine ⟨sd, hss sd (List.mem_cons_self _ _), hname, cls, ?_, htext⟩
      intro c hc
      rcases hmem c hc with hin | hin
      · simp at hin
      · exact hin

/-! ### C5: decomposition of a marker occurrence in a joined text -/

theorem prefix_no_cross {α : Type} (y : α) :
    ∀ (xs : List α) (p : List α) (ys : List α), y ∉ p → p <+: xs ++ y :: ys → p <+: xs := by
  intro xs
  induction xs with
  | nil =>
    intro p ys hy hp
    cases p with
    | nil => exact nilPrefix []
    | cons p0 p' =>
      obtain ⟨h1, -⟩ := consPrefixElim hp
      subst h1
      exact absurd (List.mem_cons_self _ _) hy
  | cons x xs' ih =>
    intro p ys hy hp
    cases p with
    | nil => exact nilPrefix _
    | cons p0 p' =>
      obtain ⟨h1, h2⟩ := consPrefixElim hp
      subst h1
      refine consPrefixIntro p0 (ih p' ys ?_ h2)
      intro hmem
      exact hy (List.mem_cons_of_mem _ hmem)

theorem infix_split {α : Type} (y : α) :
    ∀ (xs : List α) (m : List α) (ys : List α), y ∉ m → m <:+: xs ++ y :: ys →
      m <:+: xs ∨ m <:+: ys := by
  intro xs
  induction xs with
  | nil =>
    intro m ys hy h
    rcases infixConsElim (h : m <:+: y :: ys) with h1 | h1
    · cases m with
      | nil => exact Or.inl ⟨[], [], rfl⟩
      | cons m0 m' =>
        obtain ⟨he, -⟩ := consPrefixElim h1
        subst he
        exact absurd (List.mem_cons_self _ _) hy
    · exact Or.inr h1
  | cons x xs' ih =>
    intro m ys hy h
    rcases infixConsElim (h : m <:+: x :: (xs' ++ y :: ys)) with h1 | h1
    · cases m with
      | nil => exact Or.inl ⟨[], x :: xs', rfl⟩
      | cons m0 m' =>
        obtain ⟨he, h2⟩ := consPrefixElim h1
        subst he
        have h3 : m' <+: xs' := prefix_no_cross y xs' m' ys
          (fun hm => hy (List.mem_cons_of_mem _ hm)) h2
        exact Or.inl (prefixWithin (consPrefixIntro m0 h3))
    · rcases ih m ys hy h1 with h2 | h2
      · exact Or.inl (infixCons x h2)
      · exact Or.inr h2

/-- A newline-free (non-empty) pattern occurring in a newline join occurs
inside one of the joined pieces. -/
theorem infix_joinNlL (m : List Char) (hnl : '\n' ∉ m) (hne : m ≠ []) :
    ∀ (ls : List (List Char)), m <:+: joinNlL ls → ∃ l ∈ ls, m <:+: l := by
  intro ls
  induction ls with
  | nil =>
    intro h
    obtain ⟨s, t, hst⟩ := h
    have hlen := congrArg List.length hst
    rw [show joinNlL [] = [] from rfl] at hlen
    simp only [List.length_append, List.length_nil] at hlen
    exact absurd (List.eq_nil_of_length_eq_zero (by omega)) hne
  | cons a ls ih =>
    cases ls with
    | nil =>
      intro h
      exact ⟨a, List.mem_cons_self _ _, h⟩
    | cons b ls2 =>
      intro h
      rcases infix_split '\n' a m (joinNlL (b :: ls2)) hnl
          (h : m <:+: a ++ '\n' :: joinNlL (b :: ls2)) with h1 | h1
      · exact ⟨a, List.mem_cons_self _ _, h1⟩
      · obtain ⟨l, hl, hi⟩ := ih h1
        exact ⟨l, List.mem_cons_of_mem _ hl, hi⟩

/-- A newline-free marker found in a chunk text joined from clauses of one
section also occurs inside that section's text. -/
theorem marker_lift (tok : String → Nat) (target : Nat) (sec : Section)
    (m : List Char) (hnl : '\n' ∉ m) (hne : m ≠ []) (cls : List String)
    (hmem : ∀ c ∈ cls, c ∈ identify_clauses tok target sec.text)
    (hinf : m <:+: (joinNl cls).data) : m <:+: sec.text.data := by
  obtain ⟨ld, hld, hinf2⟩ := infix_joinNlL m hnl hne (cls.map String.data) hinf
  obtain ⟨c, hc, rfl⟩ := List.mem_map.mp hld
  exact infixTrans hinf2 (identify_clauses_within tok target sec.text c (hmem c hc))

/-! ### C5: counterexample, amended claim, witness -/

/-- C5 (counterexample): the section text of `c5Secs` contains a
premium-table marker, yet under the length tokenizer with target 30 and
overlap 100 the chunker's second chunk from that section is flagged
`is_premium_table = false` — the marker clause was not carried into it. -/
theorem c5_counterexample :
    containsSub markerChart c5SecText = true ∧
      (filter_premium_tables (create_chunks String.length 30 100 c5Secs)).map
        FlaggedChunk.is_premium_table = [true, false] := by decide

/-- C5 (amended): (1) the post-pass flags a chunk `is_premium_table` exactly
when the chunk's own text contains `"PREMIUM TABLE"` or `"PREMIUM CHART"`
(not when its *section* does); (2) every produced chunk originates in a
single input section — it carries that section's name and its text is the
newline join of clauses identified from that section alone, so chunks never
mix sections' clauses — and every chunk from a section whose text contains
no marker is flagged `false`; (3) a chunk can only be flagged `true` if some
input section's text contains a marker; (4) for a section text containing a
marker, clause identification splits only on tabular row boundaries
(stripped, empties dropped) and never sentence-decomposes. -/
theorem c5_premium_table_flagging :
    (∀ (chunks : List Chunk) (fc : FlaggedChunk), fc ∈ filter_premium_tables chunks →
      fc.is_premium_table
        = (containsSub markerTable fc.text || containsSub markerChart fc.text)) ∧
    (∀ (tok : String → Nat) (target ov : Nat) (ss : List Section) (fc : FlaggedChunk),
      fc ∈ filter_premium_tables (create_chunks tok target ov ss) →
      ∃ sec ∈ ss, fc.sectionName = sec.sectionName ∧
        (∃ cls : List String, (∀ c ∈ cls, c ∈ identify_clauses tok target sec.text) ∧
          fc.text = joinNl cls) ∧
        ((containsSub markerChart sec.text || containsSub markerTable sec.text) = false →
          fc.is_premium_table = false)) ∧
    (∀ (tok : String → Nat) (target ov : Nat) (ss : List Section) (fc : FlaggedChunk),
      fc ∈ filter_premium_tables (create_chunks tok target ov ss) →
      fc.is_premium_table = true →
      ∃ sec ∈ ss, (containsSub markerChart sec.text || containsSub markerTable sec.text)
        = true) ∧
    (∀ (tok : String → Nat) (target : Nat) (text : String),
      (containsSub markerChart text || containsSub markerTable text) = true →
      identify_clauses tok target text
        = (((reSplitNl tableAhead text.data).map pyStripL).filter (fun p => p ≠ [])).map
            String.mk) := by
  have hmain : ∀ (tok : String → Nat) (target ov : Nat) (ss : List Section)
      (fc : FlaggedChunk),
      fc ∈ filter_premium_tables (create_chunks tok target ov ss) →
      ∃ sec ∈ ss, fc.sectionName = sec.sectionName ∧
        (∃ cls : List String, (∀ c ∈ cls, c ∈ identify_clauses tok target sec.text) ∧
          fc.text = joinNl cls) ∧
        ((containsSub markerChart sec.text || containsSub markerTable sec.text) = false →
          fc.is_premium_table = false) := by
    intro tok target ov ss fc hfc
    obtain ⟨ch, hch, rfl⟩ := List.mem_map.mp hfc
    obtain ⟨sec, hsec, hname, cls, hmem, htext⟩ := createFold_origin tok target ov ss ss
      (fun s hs => hs) ([], 0) (by simp) ch hch
    refine ⟨sec, hsec, hname, ⟨cls, hmem, htext⟩, ?_⟩
    intro hsecfree
    have hsecfree' := Bool.eq_false_iff.mp hsecfree
    show (containsSub markerTable ch.text || containsSub markerChart ch.text) = false
    rw [Bool.eq_false_iff]
    intro hT
    rw [Bool.or_eq_true] at hT
    rcases hT with hb | hb
    · have hinf : markerTable.data <:+: ch.text.data := (containsL_iff _ _).mp hb
      rw [htext] at hinf
      have hlift := marker_lift tok target sec markerTable.data
        (by decide) (by decide) cls hmem hinf
      refine hsecfree' ?_
      rw [Bool.or_eq_true]
      exact Or.inr ((containsL_iff _ _).mpr hlift)
    · have hinf : markerChart.data <:+: ch.text.data := (containsL_iff _ _).mp hb
      rw [htext] at hinf
      have hlift := marker_lift tok target sec markerChart.data
        (by decide) (by decide) cls hmem hinf
      refine hsecfree' ?_
      rw [Bool.or_eq_true]
      exact Or.inl ((containsL_iff _ _).mpr hlift)
  refine ⟨?_, hmain, ?_, ?_⟩
  · intro chunks fc hfc
    obtain ⟨ch, hch, rfl⟩ := List.mem_map.mp hfc
    rfl
  · intro tok target ov ss fc hfc hflag
    obtain ⟨sec, hsec, -, -, himp⟩ := hmain tok target ov ss fc hfc
    refine ⟨sec, hsec, ?_⟩
    cases hmk : (containsSub markerChart sec.text || containsSub markerTable sec.text) with
    | false => exact absurd ((himp hmk).symm.trans hflag) (by decide)
    | true => rfl
  · intro tok target text h
    rw [identify_clauses, if_pos h]

theorem c5_amended_witness :
    (helloChunk.is_premium_table
      = (containsSub markerTable helloChunk.text || containsSub markerChart helloChunk.text)) ∧
    (∃ sec ∈ c5Secs, c5fc.sectionName = sec.sectionName ∧
      (∃ cls : List String, (∀ c ∈ cls, c ∈ identify_clauses String.length 30 sec.text) ∧
        c5fc.text = joinNl cls) ∧
      ((containsSub markerChart sec.text || containsSub markerTable sec.text) = false →
        c5fc.is_premium_table = false)) ∧
    (∃ sec ∈ c5Secs,
      (containsSub markerChart sec.text || containsSub markerTable sec.text) = true) ∧
    (identify_clauses String.length 30 c5SecText
      = (((reSplitNl tableAhead c5SecText.data).map pyStripL).filter (fun p => p ≠ [])).map
          String.mk) :=
  ⟨c5_premium_table_flagging.1 [helloChunk.toChunk] helloChunk (by decide),
   c5_premium_table_flagging.2.1 String.length 30 100 c5Secs c5fc (by decide),
   c5_premium_table_flagging.2.2.1 String.length 30 100 c5Secs c5fc (by decide) (by decide),
   c5_premium_table_flagging.2.2.2 String.length 30 c5SecText (by decide)⟩

/-! ### C6 -/

/-- C6 (counterexample): on `c6Text` the section splitter succeeds, but the
concatenation of the section texts is `"AB"` while the input with the
markers removed is `"A\n\nB"` — the whitespace around the marker was
stripped, so concatenation does not reconstruct the marker-free text. -/
theorem c6_counterexample :
    split_into_sections c6Text = Except.ok c6Secs ∧
      concatTexts c6Secs ≠ removeMarkers c6Text :=
  ⟨rfl, by decide⟩

theorem startsWithL_take : ∀ (p l : List Char) (k : Nat),
    startsWithL p l = true → p.length ≤ k → startsWithL p (l.take k) = true
  | [], _, _, _, _ => rfl
  | p0 :: ps, [], _, h, _ => by simp [startsWithL] at h
  | _ :: _, _ :: _, 0, _, hk => by simp at hk
  | p0 :: ps, c :: cs, k + 1, h, hk => by
    rw [show (c :: cs).take (k + 1) = c :: cs.take k from rfl]
    rw [show startsWithL (p0 :: ps) (c :: cs.take k)
        = (decide (p0 = c) && startsWithL ps (cs.take k)) from rfl]
    rw [show startsWithL (p0 :: ps) (c :: cs)
        = (decide (p0 = c) && startsWithL ps cs) from rfl, Bool.and_eq_true] at h
    rw [Bool.and_eq_true]
    exact ⟨h.1, startsWithL_take ps cs k h.2 (by simpa using hk)⟩

theorem startsWithL_append_elim : ∀ (p q l : List Char),
    startsWithL (p ++ q) l = true → startsWithL p l = true
  | [], _, _, _ => rfl
  | p0 :: ps, q, [], h => by simp [startsWithL] at h
  | p0 :: ps, q, c :: cs, h => by
    rw [show ((p0 :: ps) ++ q) = p0 :: (ps ++ q) from rfl] at h
    rw [show startsWithL (p0 :: (ps ++ q)) (c :: cs)
        = (decide (p0 = c) && startsWithL (ps ++ q) cs) from rfl, Bool.and_eq_true] at h
    rw [show startsWithL (p0 :: ps) (c :: cs)
        = (decide (p0 = c) && startsWithL ps cs) from rfl, Bool.and_eq_true]
    exact ⟨h.1, startsWithL_append_elim ps q cs h.2⟩

/-- Every delimiter matched by the marker scanner starts with the 12-character
`"### SECTION:"` prefix tested by the section loop. -/
theorem matchMarkerAt_starts (l d rest : List Char)
    (h : matchMarkerAt l = some (d, rest)) :
    startsWithS secPrefix12 (String.mk d) = true := by
  rw [matchMarkerAt] at h
  split at h
  · rename_i houter
    split at h
    · injection h with hpair
      injection hpair with hd hr
      subst hd
      show startsWithL secPrefix12.data (l.take _) = true
      have h12 : startsWithL secPrefix12.data l = true := by
        rw [show secPrefix13.data = secPrefix12.data ++ [ ' ' ] from by decide] at houter
        exact startsWithL_append_elim _ _ _ houter
      have hlen : secPrefix12.data.length = 12 := by decide
      exact startsWithL_take _ _ _ h12 (by omega)
    · simp at h
  · simp at h

theorem scanPartsF_delims :
    ∀ (fuel : Nat) (l : List Char), ∀ dt ∈ (scanPartsF fuel l).2,
      startsWithS secPrefix12 (String.mk dt.1) = true := by
  intro fuel
  induction fuel with
  | zero => intro l dt hdt; simp [scanPartsF] at hdt
  | succ fuel ih =>
    intro l
    cases l with
    | nil => intro dt hdt; simp [scanPartsF] at hdt
    | cons c rest =>
      intro dt hdt
      rw [scanPartsF] at hdt
      cases hm : matchMarkerAt (c :: rest) with
      | some dl =>
        rw [hm] at hdt
        rcases List.mem_cons.mp hdt with heq | hdt2
        · rw [heq]
          exact matchMarkerAt_starts (c :: rest) dl.1 dl.2 (by rw [hm])
        · exact ih dl.2 dt hdt2
      | none =>
        rw [hm] at hdt
        exact ih rest dt hdt

/-- Flushing the accumulated text adds exactly its stripped characters to
the concatenation of the section texts. -/
theorem concat_flush (secs : List Section) (nm : String) (cur : List Char) :
    (concatTexts (if pyStripL cur ≠ [] then
        secs ++ [{ sectionName := nm, text := String.mk (pyStripL cur) }] else secs)).data
      = (concatTexts secs).data ++ pyStripL cur := by
  split
  · simp [concatTexts, List.map_append, List.flatten_append]
  · rename_i h
    simp only [ne_eq, not_not] at h
    simp [concatTexts, h]

/-- The section loop over the alternating delimiter/text parts: the texts of
the produced sections concatenate to the stripped non-marker parts. -/
theorem partsLoop_concat :
    ∀ (segs : List (List Char × List Char)) (secs : List Section) (nm curText : String)
      (ss : List Section),
      (∀ dt ∈ segs, startsWithS secPrefix12 (String.mk dt.1) = true) →
      partsLoop (flatSegs segs) secs nm curText = Except.ok ss →
      (concatTexts ss).data
        = (concatTexts secs).data ++ pyStripL curText.data ++
          (((flatSegs segs).filter (fun p => !startsWithS secPrefix12 p)).map
            (fun p => pyStripL p.data)).flatten := by
  intro segs
  induction segs with
  | nil =>
    intro secs nm curText ss hdelims hloop
    rw [show flatSegs [] = [] from rfl] at hloop ⊢
    rw [partsLoop] at hloop
    split at hloop
    · injection hloop with h1
      subst h1
      simp [concatTexts, List.map_append, List.flatten_append]
    · injection hloop with h1
      subst h1
      rename_i hstrip
      simp only [ne_eq, not_not] at hstrip
      simp [hstrip]
  | cons dt segs ih =>
    obtain ⟨d, t⟩ := dt
    intro secs nm curText ss hdelims hloop
    have hflat : flatSegs ((d, t) :: segs) = String.mk d :: String.mk t :: flatSegs segs := rfl
    rw [hflat] at hloop ⊢
    have hd : startsWithS secPrefix12 (String.mk d) = true :=
      hdelims (d, t) (List.mem_cons_self _ _)
    have hdelims' : ∀ dt ∈ segs, startsWithS secPrefix12 (String.mk dt.1) = true :=
      fun dt hdt => hdelims dt (List.mem_cons_of_mem _ hdt)
    have hstripempty : pyStripL emptyS.data = [] := by decide
    rw [partsLoop] at hloop
    rw [if_pos hd] at hloop
    cases hsearch : searchName (String.mk d).data with
    | none => rw [hsearch] at hloop; exact absurd hloop (by simp)
    | some nm2 =>
      rw [hsearch] at hloop
      have hloop2 : partsLoop (String.mk t :: flatSegs segs)
          (if pyStripL curText.data ≠ [] then
            secs ++ [{ sectionName := nm, text := String.mk (pyStripL curText.data) }]
          else secs) (String.mk nm2) emptyS = Except.ok ss := hloop
      by_cases ht : startsWithS secPrefix12 (String.mk t) = true
      · rw [partsLoop] at hloop2
        rw [if_pos ht] at hloop2
        cases hsearch2 : searchName (String.mk t).data with
        | none => rw [hsearch2] at hloop2; exact absurd hloop2 (by simp)
        | some nm3 =>
          rw [hsearch2] at hloop2
          have hloop3 : partsLoop (flatSegs segs)
              (if pyStripL curText.data ≠ [] then
                secs ++ [{ sectionName := nm, text := String.mk (pyStripL curText.data) }]
              else secs) (String.mk nm3) emptyS = Except.ok ss := hloop2
          have heq := ih _ (String.mk nm3) emptyS ss hdelims' hloop3
          rw [heq, concat_flush secs nm curText.data]
          simp [List.filter_cons, hd, ht, hstripempty, List.append_assoc]
      · rw [partsLoop] at hloop2
        rw [if_neg ht] at hloop2
        have heq := ih _ (String.mk nm2) (emptyS ++ String.mk t) ss hdelims' hloop2
        rw [heq, concat_flush secs nm curText.data]
        have htdata : (emptyS ++ String.mk t).data = t := rfl
        have ht' : startsWithS secPrefix12 (String.mk t) = false := Bool.eq_false_iff.mpr ht
        rw [htdata]
        simp [List.filter_cons, hd, ht', hstripempty, List.append_assoc]

/-- C6 (amended): splitting loses no text except the whitespace trimmed at
section boundaries: concatenating all section texts yields exactly the
concatenation of the stripped non-marker parts of the split, in order.
(Parts treated as markers by the loop's `startswith` test are excluded on
both sides; text inside them is dropped by the code.) -/
theorem c6_section_concat (text : String) (ss : List Section)
    (h : split_into_sections text = Except.ok ss) :
    (concatTexts ss).data
      = (((allParts text).filter (fun p => !startsWithS secPrefix12 p)).map
          (fun p => pyStripL p.data)).flatten := by
  rw [split_into_sections] at h
  have hall : allParts text
      = String.mk (scanParts text).1 :: flatSegs (scanParts text).2 := rfl
  rw [hall] at h ⊢
  have hdelims : ∀ dt ∈ (scanParts text).2, startsWithS secPrefix12 (String.mk dt.1) = true :=
    fun dt hdt => scanPartsF_delims _ _ dt hdt
  have hstripempty : pyStripL emptyS.data = [] := by decide
  by_cases hpre : startsWithS secPrefix12 (String.mk (scanParts text).1) = true
  · rw [partsLoop, if_pos hpre] at h
    cases hsearch : searchName (String.mk (scanParts text).1).data with
    | none => rw [hsearch] at h; exact absurd h (by simp)
    | some nm2 =>
      rw [hsearch] at h
      have h2 : partsLoop (flatSegs (scanParts text).2) [] (String.mk nm2) emptyS
          = Except.ok ss := h
      have heq := partsLoop_concat (scanParts text).2 [] (String.mk nm2) emptyS ss hdelims h2
      rw [heq]
      simp [List.filter_cons, hpre, hstripempty, concatTexts]
  · rw [partsLoop, if_neg hpre] at h
    have heq := partsLoop_concat (scanParts text).2 [] introName
      (emptyS ++ String.mk (scanParts text).1) ss hdelims h
    rw [heq]
    have hpredata : (emptyS ++ String.mk (scanParts text).1).data = (scanParts text).1 := rfl
    have hpre' : startsWithS secPrefix12 (String.mk (scanParts text).1) = false :=
      Bool.eq_false_iff.mpr hpre
    rw [hpredata]
    simp [List.filter_cons, hpre', concatTexts]

theorem c6_amended_witness :
    (concatTexts c6Secs).data
      = (((allParts c6Text).filter (fun p => !startsWithS secPrefix12 p)).map
          (fun p => pyStripL p.data)).flatten :=
  c6_section_concat c6Text c6Secs rfl
